import Mathlib

/-!
Verification of the semantic-views expansion engine and catalog store.

The definitions below are a shallow embedding of the Rust sources:
`src/model.rs` (definition model), `src/expand.rs` (name resolution,
suggestion, join resolution, SQL assembly), `src/catalog.rs` (catalog map
operations) and `src/ddl/define.rs` / `src/ddl/drop.rs` (write-through
mutation steps).  Strings are Lean `String`s; Rust `HashSet`/`HashMap`
values are modelled by lists that are only ever queried through membership
and key lookup.
-/

set_option autoImplicit false
set_option maxHeartbeats 1000000
set_option maxRecDepth 100000

/-- ASCII lowercasing of a single character, as Rust's
`char::to_ascii_lowercase`: only `A`-`Z` are mapped. -/
def asciiLowerChar (c : Char) : Char :=
  if 65 ≤ c.toNat ∧ c.toNat ≤ 90 then Char.ofNat (c.toNat + 32) else c

/-- ASCII lowercasing of a string, as Rust's `str::to_ascii_lowercase`. -/
def lowerS (s : String) : String :=
  ⟨s.data.map asciiLowerChar⟩

/-- Case-insensitive ASCII string equality, as Rust's
`str::eq_ignore_ascii_case`. -/
def eqIgnoreCase (a b : String) : Bool :=
  lowerS a == lowerS b

/-- One row update of the Levenshtein distance dynamic program. -/
def levRowStep (x : Char) : List Char → List Nat → Nat → Nat → List Nat
  | [], _, _, _ => []
  | _ :: _, [], _, _ => []
  | y :: ys, p :: ps, diag, left =>
    let cost : Nat := if x = y then 0 else 1
    let cell := min (left + 1) (min (p + 1) (diag + cost))
    cell :: levRowStep x ys ps p cell

/-- Row-by-row continuation of the Levenshtein dynamic program. -/
def levFold (b : List Char) : List Char → List Nat → List Nat
  | [], row => row
  | x :: xs, row =>
    match row with
    | [] => []
    | r0 :: rs => levFold b xs ((r0 + 1) :: levRowStep x b rs r0 (r0 + 1))

/-- Levenshtein edit distance on characters (standard row dynamic program),
the function computed by `strsim::levenshtein` in `suggest_closest`. -/
def levDist (a b : List Char) : Nat :=
  (levFold b a (List.range (b.length + 1))).getLastD 0

/-- Edit distance between the (already lowercased) query and a candidate,
lowercased.  Helper naming the distance computed inside `suggest_closest`. -/
def candDist (query cand : String) : Nat :=
  levDist query.data (lowerS cand).data

/-- The accumulator loop of `suggest_closest` (`src/expand.rs` lines 13-25):
scan candidates keeping the best `(distance, candidate)` pair among those at
distance at most 3, replacing only on strictly smaller distance. -/
def bestAux (query : String) : List String → Option (Nat × String) → Option (Nat × String)
  | [], best => best
  | c :: rest, best =>
    let d := candDist query c
    let best' :=
      if d ≤ 3 then
        match best with
        | some (bd, bs) => if d < bd then some (d, c) else some (bd, bs)
        | none => some (d, c)
      else best
    bestAux query rest best'

/-- `suggest_closest` from `src/expand.rs`: the original-cased candidate with
the smallest Levenshtein distance to the query (both sides ASCII-lowercased),
provided that distance is at most 3; ties go to the first-encountered
candidate. -/
def suggestClosest (name : String) (available : List String) : Option String :=
  (bestAux (lowerS name) available none).map (fun p => p.2)

/-- `Dimension` from `src/model.rs`. -/
structure Dimension where
  name : String
  expr : String
  source_table : Option String
deriving DecidableEq

/-- `Metric` from `src/model.rs`. -/
structure Metric where
  name : String
  expr : String
  source_table : Option String
deriving DecidableEq

/-- `Join` from `src/model.rs` (`on` is the opaque ON-clause text). -/
structure Join where
  table : String
  onText : String
deriving DecidableEq

/-- `SemanticViewDefinition` from `src/model.rs`. -/
structure SemanticViewDefinition where
  base_table : String
  dimensions : List Dimension
  metrics : List Metric
  filters : List String
  joins : List Join
deriving DecidableEq

/-- `QueryRequest` from `src/expand.rs`. -/
structure QueryRequest where
  dimensions : List String
  metrics : List String
deriving DecidableEq

/-- `ExpandError` from `src/expand.rs`. -/
inductive ExpandError where
  | emptyMetrics (view_name : String)
  | unknownDimension (view_name : String) (name : String)
      (available : List String) (suggestion : Option String)
  | unknownMetric (view_name : String) (name : String)
      (available : List String) (suggestion : Option String)
  | duplicateDimension (view_name : String) (name : String)
  | duplicateMetric (view_name : String) (name : String)
deriving DecidableEq

/-- `quote_ident` from `src/expand.rs`: wrap in double quotes, doubling any
embedded double quote (single-character replacement spelled out on the
character list). -/
def quoteIdent (ident : String) : String :=
  "\"" ++ String.join (ident.data.map (fun c => if c = '"' then "\"\"" else String.singleton c)) ++ "\""

/-- `find_dimension` from `src/expand.rs`: first declared dimension whose
name matches case-insensitively. -/
def findDimension (dfn : SemanticViewDefinition) (name : String) : Option Dimension :=
  dfn.dimensions.find? (fun d => eqIgnoreCase d.name name)

/-- `find_metric` from `src/expand.rs`. -/
def findMetric (dfn : SemanticViewDefinition) (name : String) : Option Metric :=
  dfn.metrics.find? (fun m => eqIgnoreCase m.name name)

/-- Step 1 of `resolve_joins` (`src/expand.rs`): the deduplicated lowercased
`source_table` values of the resolved dimensions and metrics (dimensions
first, as the Rust `HashSet` insertions; order is irrelevant, only
membership is ever queried). -/
def sourceTables (ds : List Dimension) (ms : List Metric) : List String :=
  let add := fun (acc : List String) (o : Option String) =>
    match o with
    | none => acc
    | some st => let l := lowerS st; if l ∈ acc then acc else acc ++ [l]
  (ms.map (fun m => m.source_table)).foldl add ((ds.map (fun d => d.source_table)).foldl add [])

/-- Substring containment on character lists, as Rust's `str::contains`
with a string pattern (an empty pattern is contained in everything). -/
def listSub (pat : List Char) : List Char → Bool
  | [] => pat.isEmpty
  | c :: rest => pat.isPrefixOf (c :: rest) || listSub pat rest

/-- Substring containment on strings, as Rust's `str::contains`. -/
def substrB (pat text : String) : Bool :=
  listSub pat.data text.data

/-- The inner loop of the `resolve_joins` fixed point: for one needed join
(lowercased table `tl`, lowercased ON text `onl`) scan all declared joins and
add any other join's lowercased table that the ON text contains and that is
not yet needed. -/
def innerScan (tl onl : String) : List Join → List String → List String
  | [], needed => needed
  | o :: rest, needed =>
    let ol := lowerS o.table
    let needed' :=
      if ol ≠ tl ∧ ol ∉ needed ∧ substrB ol onl then needed ++ [ol]
      else needed
    innerScan tl onl rest needed'

/-- One full scan of the `resolve_joins` fixed-point loop over the declared
joins (the mutable needed-set is threaded through, as in the Rust loop). -/
def outerScan (allJoins : List Join) : List Join → List String → List String
  | [], needed => needed
  | j :: rest, needed =>
    let tl := lowerS j.table
    let needed' := if tl ∈ needed then innerScan tl (lowerS j.onText) allJoins needed else needed
    outerScan allJoins rest needed'

/-- One iteration of the Rust `loop` body in `resolve_joins`. -/
def scanStep (joins : List Join) (needed : List String) : List String :=
  outerScan joins joins needed

/-- The `resolve_joins` fixed-point loop.  The Rust loop is unbounded and
stops at the first scan that makes no change; here it carries fuel, and the
termination theorems below show that `joins.length + 1` scans always reach
the fixed point, so the two agree. -/
def loopFix : Nat → List Join → List String → List String
  | 0, _, needed => needed
  | fuel + 1, joins, needed =>
    let n' := scanStep joins needed
    if n' = needed then needed else loopFix fuel joins n'

/-- `resolve_joins` from `src/expand.rs`: needed set seeded from
`source_table` values, closed under ON-text containment, then the declared
joins filtered in declaration order. -/
def resolveJoins (joins : List Join) (ds : List Dimension) (ms : List Metric) : List Join :=
  let needed0 := sourceTables ds ms
  if needed0.isEmpty then []
  else
    let final := loopFix (joins.length + 1) joins needed0
    joins.filter (fun j => decide (lowerS j.table ∈ final))

/-- The dimension-resolution loop of `expand` (`src/expand.rs` lines
245-265): duplicate check against the lowercased seen-set, then
case-insensitive lookup, with the same errors. -/
def resolveDims (vn : String) (dfn : SemanticViewDefinition) :
    List String → List String → Except ExpandError (List Dimension)
  | _, [] => Except.ok []
  | seen, n :: rest =>
    if lowerS n ∈ seen then Except.error (ExpandError.duplicateDimension vn n)
    else
      match findDimension dfn n with
      | none =>
        let available := dfn.dimensions.map (fun d => d.name)
        Except.error (ExpandError.unknownDimension vn n available (suggestClosest n available))
      | some d =>
        match resolveDims vn dfn (lowerS n :: seen) rest with
        | Except.error e => Except.error e
        | Except.ok ds => Except.ok (d :: ds)

/-- The metric-resolution loop of `expand` (`src/expand.rs` lines 268-288). -/
def resolveMets (vn : String) (dfn : SemanticViewDefinition) :
    List String → List String → Except ExpandError (List Metric)
  | _, [] => Except.ok []
  | seen, n :: rest =>
    if lowerS n ∈ seen then Except.error (ExpandError.duplicateMetric vn n)
    else
      match findMetric dfn n with
      | none =>
        let available := dfn.metrics.map (fun m => m.name)
        Except.error (ExpandError.unknownMetric vn n available (suggestClosest n available))
      | some m =>
        match resolveMets vn dfn (lowerS n :: seen) rest with
        | Except.error e => Except.error e
        | Except.ok ms => Except.ok (m :: ms)

/-- The JOIN clauses of the base CTE (`src/expand.rs` lines 299-304). -/
def joinClauses (js : List Join) : String :=
  String.join (js.map (fun j => "\n    JOIN " ++ quoteIdent j.table ++ " ON " ++ j.onText))

/-- The base CTE of the emitted SQL (`src/expand.rs` steps 5). -/
def cteFor (dfn : SemanticViewDefinition) (ds : List Dimension) (ms : List Metric) : String :=
  "WITH \"_base\" AS (\n    SELECT *\n    FROM " ++ quoteIdent dfn.base_table
    ++ joinClauses (resolveJoins dfn.joins ds ms)
    ++ (if dfn.filters.isEmpty then ""
        else "\n    WHERE " ++ String.intercalate (" AND ") (dfn.filters.map (fun f => "(" ++ f ++ ")")))
    ++ "\n)"

/-- One item of the outer SELECT list (`src/expand.rs` lines 318-324). -/
def selectItem (name expr : String) : String :=
  "    " ++ expr ++ " AS " ++ quoteIdent name

/-- SQL assembly from resolved dimensions and metrics (`src/expand.rs`
steps 5-8). -/
def buildSql (dfn : SemanticViewDefinition) (ds : List Dimension) (ms : List Metric) : String :=
  cteFor dfn ds ms
    ++ "\nSELECT\n"
    ++ String.intercalate (",\n")
        (ds.map (fun d => selectItem d.name d.expr) ++ ms.map (fun m => selectItem m.name m.expr))
    ++ "\nFROM \"_base\""
    ++ (if ds.isEmpty then ""
        else "\nGROUP BY\n" ++ String.intercalate (",\n") (ds.map (fun d => "    " ++ d.expr)))

/-- `expand` from `src/expand.rs`: empty-metric check, dimension and metric
resolution, join resolution and SQL assembly. -/
def expand (vn : String) (dfn : SemanticViewDefinition) (req : QueryRequest) :
    Except ExpandError String :=
  if req.metrics.isEmpty then Except.error (ExpandError.emptyMetrics vn)
  else
    match resolveDims vn dfn [] req.dimensions with
    | Except.error e => Except.error e
    | Except.ok ds =>
      match resolveMets vn dfn [] req.metrics with
      | Except.error e => Except.error e
      | Except.ok ms => Except.ok (buildSql dfn ds ms)

/-- JSON values.  Modelled from the spec: JSON text parsing is an external
trusted library call (`serde_json`, out of scope per the spec); numbers are
kept as their uninterpreted lexemes. -/
inductive Json where
  | null
  | bool (b : Bool)
  | num (lexeme : String)
  | str (s : String)
  | arr (items : List Json)
  | obj (fields : List (String × Json))

/-- The opening-brace character (written by code point). -/
def lbraceChar : Char := Char.ofNat 123

/-- The closing-brace character (written by code point). -/
def rbraceChar : Char := Char.ofNat 125

/-- Drop leading JSON whitespace. -/
def skipWs : List Char → List Char
  | [] => []
  | c :: rest => if c = ' ' ∨ c = '\t' ∨ c = '\n' ∨ c = '\r' then skipWs rest else c :: rest

/-- Value of one hexadecimal digit. -/
def hexVal (c : Char) : Option Nat :=
  if '0' ≤ c ∧ c ≤ '9' then some (c.toNat - 48)
  else if 'a' ≤ c ∧ c ≤ 'f' then some (c.toNat - 87)
  else if 'A' ≤ c ∧ c ≤ 'F' then some (c.toNat - 55)
  else none

/-- Parse the remainder of a JSON string literal (after the opening quote),
accumulating characters in reverse. -/
def parseStrAux : List Char → List Char → Option (String × List Char)
  | [], _ => none
  | c :: rest, acc =>
    if c = '"' then some (⟨acc.reverse⟩, rest)
    else if c = '\\' then
      match rest with
      | [] => none
      | e :: rest2 =>
        if e = '"' ∨ e = '\\' ∨ e = '/' then parseStrAux rest2 (e :: acc)
        else if e = 'n' then parseStrAux rest2 ('\n' :: acc)
        else if e = 't' then parseStrAux rest2 ('\t' :: acc)
        else if e = 'r' then parseStrAux rest2 ('\r' :: acc)
        else if e = 'b' then parseStrAux rest2 (Char.ofNat 8 :: acc)
        else if e = 'f' then parseStrAux rest2 (Char.ofNat 12 :: acc)
        else if e = 'u' then
          match rest2 with
          | h1 :: h2 :: h3 :: h4 :: rest3 =>
            match hexVal h1, hexVal h2, hexVal h3, hexVal h4 with
            | some a, some b, some c2, some d =>
              parseStrAux rest3 (Char.ofNat (((a * 16 + b) * 16 + c2) * 16 + d) :: acc)
            | _, _, _, _ => none
          | _ => none
        else none
    else parseStrAux rest (c :: acc)

/-- Characters that may appear in a JSON number lexeme. -/
def numChar (c : Char) : Bool :=
  c.isDigit || c = '-' || c = '+' || c = '.' || c = 'e' || c = 'E'

mutual

/-- Modelled from the spec: one JSON value, as parsed by the trusted
`serde_json` text parser.  Fuel-indexed for termination; `parseJsonText`
supplies ample fuel. -/
def parseVal : Nat → List Char → Option (Json × List Char)
  | 0, _ => none
  | fuel + 1, cs =>
    match skipWs cs with
    | [] => none
    | c :: rest =>
      if c = '"' then (parseStrAux rest []).map (fun p => (Json.str p.1, p.2))
      else if c = '[' then
        (parseArrFirst fuel rest).map (fun p => (Json.arr p.1, p.2))
      else if c = lbraceChar then
        (parseObjFirst fuel rest).map (fun p => (Json.obj p.1, p.2))
      else if c = 'n' then
        match rest with
        | 'u' :: 'l' :: 'l' :: r => some (Json.null, r)
        | _ => none
      else if c = 't' then
        match rest with
        | 'r' :: 'u' :: 'e' :: r => some (Json.bool true, r)
        | _ => none
      else if c = 'f' then
        match rest with
        | 'a' :: 'l' :: 's' :: 'e' :: r => some (Json.bool false, r)
        | _ => none
      else if c.isDigit ∨ c = '-' then
        some (Json.num ⟨(c :: rest).takeWhile numChar⟩, (c :: rest).dropWhile numChar)
      else none

/-- Array items directly after `[`: empty array or first value then rest. -/
def parseArrFirst : Nat → List Char → Option (List Json × List Char)
  | 0, _ => none
  | fuel + 1, cs =>
    match skipWs cs with
    | ']' :: rest => some ([], rest)
    | cs' =>
      match parseVal fuel cs' with
      | none => none
      | some (v, rest) =>
        (parseArrRest fuel rest).map (fun p => (v :: p.1, p.2))

/-- Array continuation: `]` ends, `,` demands another value. -/
def parseArrRest : Nat → List Char → Option (List Json × List Char)
  | 0, _ => none
  | fuel + 1, cs =>
    match skipWs cs with
    | ']' :: rest => some ([], rest)
    | ',' :: rest =>
      match parseVal fuel rest with
      | none => none
      | some (v, rest2) =>
        (parseArrRest fuel rest2).map (fun p => (v :: p.1, p.2))
    | _ => none

/-- Object members directly after the opening brace. -/
def parseObjFirst : Nat → List Char → Option (List (String × Json) × List Char)
  | 0, _ => none
  | fuel + 1, cs =>
    match skipWs cs with
    | [] => none
    | c :: rest =>
      if c = rbraceChar then some ([], rest)
      else if c = '"' then
        match parseStrAux rest [] with
        | none => none
        | some (k, rest2) =>
          match skipWs rest2 with
          | ':' :: rest3 =>
            match parseVal fuel rest3 with
            | none => none
            | some (v, rest4) =>
              (parseObjRest fuel rest4).map (fun p => ((k, v) :: p.1, p.2))
          | _ => none
      else none

/-- Object continuation: closing brace ends, `,` demands another member. -/
def parseObjRest : Nat → List Char → Option (List (String × Json) × List Char)
  | 0, _ => none
  | fuel + 1, cs =>
    match skipWs cs with
    | [] => none
    | c :: rest =>
      if c = rbraceChar then some ([], rest)
      else if c = ',' then
        match skipWs rest with
        | '"' :: rest2 =>
          match parseStrAux rest2 [] with
          | none => none
          | some (k, rest3) =>
            match skipWs rest3 with
            | ':' :: rest4 =>
              match parseVal fuel rest4 with
              | none => none
              | some (v, rest5) =>
                (parseObjRest fuel rest5).map (fun p => ((k, v) :: p.1, p.2))
            | _ => none
        | _ => none
      else none

end

/-- Modelled from the spec: whole-text JSON parsing as done by the trusted
`serde_json` library — one value followed only by whitespace. -/
def parseJsonText (s : String) : Option Json :=
  match parseVal (2 * s.length + 4) s.data with
  | some (v, rest) => if (skipWs rest).isEmpty then some v else none
  | none => none

/-- First field with the given key, as serde struct field lookup. -/
def lookupField (fields : List (String × Json)) (k : String) : Option Json :=
  (fields.find? (fun p => p.1 == k)).map (fun p => p.2)

/-- Require a string-valued field. -/
def getReqString (fields : List (String × Json)) (k : String) : Except String String :=
  match lookupField fields k with
  | some (Json.str s) => Except.ok s
  | some _ => Except.error ("invalid type for field '" ++ k ++ "'")
  | none => Except.error ("missing field '" ++ k ++ "'")

/-- Optional `source_table` field: absent or `null` means `None`. -/
def getSourceTable (fields : List (String × Json)) : Except String (Option String) :=
  match lookupField fields ("source_table") with
  | none => Except.ok none
  | some Json.null => Except.ok none
  | some (Json.str s) => Except.ok (some s)
  | some _ => Except.error ("invalid type for field 'source_table'")

/-- Require an array-valued field; `none` when the field is absent. -/
def getArr (fields : List (String × Json)) (k : String) : Option (Except String (List Json)) :=
  match lookupField fields k with
  | some (Json.arr xs) => some (Except.ok xs)
  | some _ => some (Except.error ("invalid type for field '" ++ k ++ "'"))
  | none => none

/-- Modelled from the spec: serde deserialization of a `Dimension`
(`src/model.rs`): `name` and `expr` required strings, `source_table`
optional, unknown fields ignored (no `deny_unknown_fields` on `Dimension`). -/
def deserializeDimension : Json → Except String Dimension
  | Json.obj fields => do
    let n ← getReqString fields ("name")
    let e ← getReqString fields ("expr")
    let st ← getSourceTable fields
    Except.ok ⟨n, e, st⟩
  | _ => Except.error ("expected object for dimension")

/-- Modelled from the spec: serde deserialization of a `Metric`. -/
def deserializeMetric : Json → Except String Metric
  | Json.obj fields => do
    let n ← getReqString fields ("name")
    let e ← getReqString fields ("expr")
    let st ← getSourceTable fields
    Except.ok ⟨n, e, st⟩
  | _ => Except.error ("expected object for metric")

/-- Modelled from the spec: serde deserialization of a `Join` (`table` and
`on` required strings). -/
def deserializeJoin : Json → Except String Join
  | Json.obj fields => do
    let t ← getReqString fields ("table")
    let o ← getReqString fields ("on")
    Except.ok ⟨t, o⟩
  | _ => Except.error ("expected object for join")

/-- Require a string inside the `filters` array. -/
def asFilterString : Json → Except String String
  | Json.str s => Except.ok s
  | _ => Except.error ("expected string in filters")

/-- The five recognized top-level fields of a stored definition
(`src/model.rs`; `#[serde(deny_unknown_fields)]` rejects everything else). -/
def allowedKeys : List String :=
  ["base_table", "dimensions", "metrics", "filters", "joins"]

/-- Modelled from the spec: serde deserialization of a
`SemanticViewDefinition` (`src/model.rs`): strict about unknown top-level
fields; `base_table`, `dimensions`, `metrics` required; `filters` and
`joins` default to `[]` when absent. -/
def deserializeDefinition : Json → Except String SemanticViewDefinition
  | Json.obj fields =>
    match fields.find? (fun p => !(allowedKeys.contains p.1)) with
    | some p => Except.error ("unknown field '" ++ p.1 ++ "'")
    | none =>
      match getReqString fields ("base_table") with
      | Except.error e => Except.error e
      | Except.ok bt =>
        match getArr fields ("dimensions") with
        | none => Except.error ("missing field 'dimensions'")
        | some (Except.error e) => Except.error e
        | some (Except.ok dimsJ) =>
          match dimsJ.mapM deserializeDimension with
          | Except.error e => Except.error e
          | Except.ok dims =>
            match getArr fields ("metrics") with
            | none => Except.error ("missing field 'metrics'")
            | some (Except.error e) => Except.error e
            | some (Except.ok metsJ) =>
              match metsJ.mapM deserializeMetric with
              | Except.error e => Except.error e
              | Except.ok mets =>
                match (match getArr fields ("filters") with
                       | none => Except.ok []
                       | some (Except.error e) => Except.error e
                       | some (Except.ok xs) => xs.mapM asFilterString) with
                | Except.error e => Except.error e
                | Except.ok fs =>
                  match (match getArr fields ("joins") with
                         | none => Except.ok []
                         | some (Except.error e) => Except.error e
                         | some (Except.ok xs) => xs.mapM deserializeJoin) with
                  | Except.error e => Except.error e
                  | Except.ok js => Except.ok ⟨bt, dims, mets, fs, js⟩
  | _ => Except.error ("expected object")

/-- `SemanticViewDefinition::from_json` (`src/model.rs`): parse and
validate, prefixing errors with the view name for context.  The text-level
parse is the spec-modelled trusted library call. -/
def fromJson (name json : String) : Except String SemanticViewDefinition :=
  match parseJsonText json with
  | none => Except.error ("invalid definition for semantic view '" ++ name ++ "': malformed JSON")
  | some v =>
    match deserializeDefinition v with
    | Except.error e => Except.error ("invalid definition for semantic view '" ++ name ++ "': " ++ e)
    | Except.ok d => Except.ok d

/-- The in-memory catalog map (`CatalogState` in `src/catalog.rs`), modelled
as an association list queried only through key lookup. -/
abbrev CatalogMap : Type := List (String × String)

/-- Key lookup, as `HashMap::get`. -/
def mapLookup (m : CatalogMap) (k : String) : Option String :=
  (List.find? (fun p => p.1 == k) m).map (fun p => p.2)

/-- Key presence, as `HashMap::contains_key`. -/
def mapContains (m : CatalogMap) (k : String) : Bool :=
  (mapLookup m k).isSome

/-- Key insertion (replace-or-append), as `HashMap::insert`. -/
def mapInsertKV (m : CatalogMap) (k v : String) : CatalogMap :=
  List.filter (fun p => !(p.1 == k)) m ++ [(k, v)]

/-- Key removal, as `HashMap::remove`. -/
def mapRemove (m : CatalogMap) (k : String) : CatalogMap :=
  List.filter (fun p => !(p.1 == k)) m

/-- `catalog_insert` from `src/catalog.rs`: validate the JSON, reject a
duplicate name, then store the raw text.  Returned alongside the resulting
map so that a failed call visibly leaves the map unchanged. -/
def catalogInsertS (m : CatalogMap) (name json : String) : Except String Unit × CatalogMap :=
  match fromJson name json with
  | Except.error e => (Except.error e, m)
  | Except.ok _ =>
    if mapContains m name then
      (Except.error ("semantic view '" ++ name ++ "' already exists; call drop_semantic_view first"), m)
    else
      (Except.ok (), mapInsertKV m name json)

/-- `catalog_delete` from `src/catalog.rs`. -/
def catalogDeleteS (m : CatalogMap) (name : String) : Except String Unit × CatalogMap :=
  if !(mapContains m name) then
    (Except.error ("semantic view '" ++ name ++ "' does not exist"), m)
  else
    (Except.ok (), mapRemove m name)

/-- Combined in-memory and durable state for the write path
(`src/ddl/define.rs` / `src/ddl/drop.rs` with the background catalog
writer of the spec's Background Persistence Writer). -/
structure SysState where
  mem : CatalogMap
  durable : CatalogMap

/-- One unit of `DefineSemanticView::invoke` (`src/ddl/define.rs`):
validate, duplicate-check, write through the durability layer, and mutate
the in-memory map only on durable success.  The durability layer
(`CatalogWriterHandle`) is modelled from the spec (its code is not under
`src/`): `writerOk` abstracts the writer's reply — on a success reply the
durable store holds the row, on a failure reply it is unchanged and the
error propagates before the map is touched. -/
def defineInvokeStep (s : SysState) (name json : String) (writerOk : Bool) :
    Except String Unit × SysState :=
  match fromJson name json with
  | Except.error e => (Except.error e, s)
  | Except.ok _ =>
    if mapContains s.mem name then
      (Except.error ("semantic view '" ++ name ++ "' already exists; call drop_semantic_view first"), s)
    else if writerOk then
      (Except.ok (), ⟨mapInsertKV s.mem name json, mapInsertKV s.durable name json⟩)
    else
      (Except.error ("durable write failed"), s)

/-- One unit of `DropSemanticView::invoke` (`src/ddl/drop.rs`), with the
durability layer modelled as in `defineInvokeStep`. -/
def dropInvokeStep (s : SysState) (name : String) (writerOk : Bool) :
    Except String Unit × SysState :=
  if !(mapContains s.mem name) then
    (Except.error ("semantic view '" ++ name ++ "' does not exist"), s)
  else if writerOk then
    (Except.ok (), ⟨mapRemove s.mem name, mapRemove s.durable name⟩)
  else
    (Except.error ("durable write failed"), s)

/-- The in-memory map and the durable store agree on every key. -/
def SysSync (s : SysState) : Prop :=
  ∀ k, mapLookup s.mem k = mapLookup s.durable k

/-- Concrete definition of scenario 1: the `orders` view with one dimension
and one metric. -/
def ordersDefC4 : SemanticViewDefinition :=
  ⟨"orders", [⟨"region", "region", none⟩], [⟨"total_revenue", "sum(amount)", none⟩], [], []⟩

/-- Concrete two-dimension `orders` view used by the suggestion scenario. -/
def ordersDefC6 : SemanticViewDefinition :=
  ⟨"orders", [⟨"region", "region", none⟩, ⟨"status", "status", none⟩],
    [⟨"total_revenue", "sum(amount)", none⟩, ⟨"order_count", "count(*)", none⟩], [], []⟩

/-! ### Catalog map lemmas -/

theorem mapLookup_insert (m : CatalogMap) (k v key : String) :
    mapLookup (mapInsertKV m k v) key = if key = k then some v else mapLookup m key := by
  induction m with
  | nil =>
    by_cases h : key = k
    · subst h; simp [mapLookup, mapInsertKV, List.find?_cons]
    · have h' : ¬ k = key := fun hh => h hh.symm
      simp [mapLookup, mapInsertKV, List.find?_cons, beq_iff_eq, h, h']
  | cons hd tl ih =>
    by_cases h1 : hd.1 = k
    · have e1 : mapInsertKV (hd :: tl) k v = mapInsertKV tl k v := by
        simp [mapInsertKV, List.filter_cons, h1]
      rw [e1, ih]
      by_cases h2 : key = k
      · simp [h2]
      · have h3 : ¬ hd.1 = key := by rw [h1]; exact fun hh => h2 hh.symm
        simp [mapLookup, List.find?_cons, beq_iff_eq, h3, h2]
    · have e1 : mapInsertKV (hd :: tl) k v = hd :: mapInsertKV tl k v := by
        simp [mapInsertKV, List.filter_cons, h1]
      rw [e1]
      by_cases h2 : hd.1 = key
      · have hkk : ¬ key = k := by rw [← h2]; exact h1
        simp [mapLookup, List.find?_cons, beq_iff_eq, h2, hkk]
      · have e2 : mapLookup (hd :: mapInsertKV tl k v) key = mapLookup (mapInsertKV tl k v) key := by
          simp [mapLookup, List.find?_cons, beq_iff_eq, h2]
        rw [e2, ih]
        by_cases h3 : key = k
        · simp [h3]
        · simp [h3, mapLookup, List.find?_cons, beq_iff_eq, h2]

theorem mapLookup_remove (m : CatalogMap) (k key : String) :
    mapLookup (mapRemove m k) key = if key = k then none else mapLookup m key := by
  induction m with
  | nil => by_cases h : key = k <;> simp [mapLookup, mapRemove, List.find?, h]
  | cons hd tl ih =>
    by_cases h1 : hd.1 = k
    · have e1 : mapRemove (hd :: tl) k = mapRemove tl k := by
        simp [mapRemove, List.filter_cons, h1]
      rw [e1, ih]
      by_cases h2 : key = k
      · simp [h2]
      · have h3 : ¬ hd.1 = key := by rw [h1]; exact fun hh => h2 hh.symm
        simp [mapLookup, List.find?_cons, beq_iff_eq, h3, h2]
    · have e1 : mapRemove (hd :: tl) k = hd :: mapRemove tl k := by
        simp [mapRemove, List.filter_cons, h1]
      rw [e1]
      by_cases h2 : hd.1 = key
      · have hkk : ¬ key = k := by rw [← h2]; exact h1
        simp [mapLookup, List.find?_cons, beq_iff_eq, h2, hkk]
      · have e2 : mapLookup (hd :: mapRemove tl k) key = mapLookup (mapRemove tl k) key := by
          simp [mapLookup, List.find?_cons, beq_iff_eq, h2]
        rw [e2, ih]
        by_cases h3 : key = k
        · simp [h3]
        · simp [h3, mapLookup, List.find?_cons, beq_iff_eq, h2]

theorem mapContains_eq_true_iff (m : CatalogMap) (k : String) :
    mapContains m k = true ↔ ∃ v, mapLookup m k = some v := by
  unfold mapContains
  cases h : mapLookup m k <;> simp [h]

/-! ### Resolution loops never produce the empty-metrics error -/

theorem resolveDims_ne_emptyMetrics (vn v : String) (dfn : SemanticViewDefinition) :
    ∀ names seen, resolveDims vn dfn seen names ≠ Except.error (ExpandError.emptyMetrics v) := by
  intro names
  induction names with
  | nil => intro seen; simp [resolveDims]
  | cons n rest ih =>
    intro seen
    simp only [resolveDims]
    split
    · simp
    · cases hf : findDimension dfn n with
      | none => simp
      | some d =>
        simp only
        cases hr : resolveDims vn dfn (lowerS n :: seen) rest with
        | error e =>
          intro h
          exact ih (lowerS n :: seen) (by rw [hr]; exact congrArg Except.error (Except.error.inj h))
        | ok ds => simp

theorem resolveMets_ne_emptyMetrics (vn v : String) (dfn : SemanticViewDefinition) :
    ∀ names seen, resolveMets vn dfn seen names ≠ Except.error (ExpandError.emptyMetrics v) := by
  intro names
  induction names with
  | nil => intro seen; simp [resolveMets]
  | cons n rest ih =>
    intro seen
    simp only [resolveMets]
    split
    · simp
    · cases hf : findMetric dfn n with
      | none => simp
      | some d =>
        simp only
        cases hr : resolveMets vn dfn (lowerS n :: seen) rest with
        | error e =>
          intro h
          exact ih (lowerS n :: seen) (by rw [hr]; exact congrArg Except.error (Except.error.inj h))
        | ok ms => simp

/-- Inversion of a successful `expand`. -/
theorem expand_ok_inv (vn : String) (dfn : SemanticViewDefinition) (req : QueryRequest)
    (sql : String) (h : expand vn dfn req = Except.ok sql) :
    req.metrics.isEmpty = false ∧
      ∃ ds ms, resolveDims vn dfn [] req.dimensions = Except.ok ds ∧
        resolveMets vn dfn [] req.metrics = Except.ok ms ∧ sql = buildSql dfn ds ms := by
  unfold expand at h
  split at h
  · exact absurd h (by simp)
  · refine ⟨by simp_all, ?_⟩
    cases hd : resolveDims vn dfn [] req.dimensions with
    | error e => rw [hd] at h; exact absurd h (by simp)
    | ok ds =>
      rw [hd] at h
      cases hm : resolveMets vn dfn [] req.metrics with
      | error e => rw [hm] at h; exact absurd h (by simp)
      | ok ms =>
        rw [hm] at h
        exact ⟨ds, ms, rfl, rfl, (Except.ok.inj h).symm⟩

/-- C7: `expand` returns the `EmptyMetrics` error exactly when the requested
metric list is empty, whatever the requested dimensions are (the check
precedes all name resolution, so unknown or duplicate dimension names cannot
change the outcome); in particular the all-empty request yields
`EmptyMetrics`. -/
theorem expand_emptyMetrics_iff (vn : String) (dfn : SemanticViewDefinition) (req : QueryRequest) :
    expand vn dfn req = Except.error (ExpandError.emptyMetrics vn) ↔ req.metrics = [] := by
  constructor
  · intro h
    by_contra hne
    unfold expand at h
    rw [if_neg (by simpa using hne)] at h
    cases hd : resolveDims vn dfn [] req.dimensions with
    | error e =>
      rw [hd] at h
      have he : e = ExpandError.emptyMetrics vn := by simpa using h
      exact resolveDims_ne_emptyMetrics vn vn dfn req.dimensions [] (by rw [hd, he])
    | ok ds =>
      rw [hd] at h
      simp only [] at h
      cases hm : resolveMets vn dfn [] req.metrics with
      | error e =>
        rw [hm] at h
        have he : e = ExpandError.emptyMetrics vn := by simpa using h
        exact resolveMets_ne_emptyMetrics vn vn dfn req.metrics [] (by rw [hm, he])
      | ok ms => rw [hm] at h; exact absurd h (by simp)
  · intro h
    unfold expand
    rw [if_pos (by simp [h])]

/-- C9: `expand` is deterministic — identical view name, definition and
request always yield the identical result value (hence byte-identical SQL
on success and the same error value on failure). -/
theorem expand_deterministic (vn1 vn2 : String) (dfn1 dfn2 : SemanticViewDefinition)
    (req1 req2 : QueryRequest) (hv : vn1 = vn2) (hd : dfn1 = dfn2) (hr : req1 = req2) :
    expand vn1 dfn1 req1 = expand vn2 dfn2 req2 := by
  subst hv; subst hd; subst hr; rfl

/-- Witness for C9 at the concrete orders view. -/
theorem expand_deterministic_witness :
    expand ("orders") ordersDefC6 ⟨["region"], ["total_revenue"]⟩ =
      expand ("orders") ordersDefC6 ⟨["region"], ["total_revenue"]⟩ :=
  expand_deterministic ("orders") ("orders") ordersDefC6 ordersDefC6
    ⟨["region"], ["total_revenue"]⟩ ⟨["region"], ["total_revenue"]⟩ rfl rfl rfl


/-- C4 (amended): scenario 1 expands to exactly this SQL text — the same
lines as the claimed string but with four spaces of indentation on the
indented lines, byte for byte. -/
theorem expand_scenario1_sql :
    expand ("orders") ordersDefC4 ⟨["region"], ["total_revenue"]⟩ =
      Except.ok ("WITH \"_base\" AS (\n    SELECT *\n    FROM \"orders\"\n)\nSELECT\n    region AS \"region\",\n    sum(amount) AS \"total_revenue\"\nFROM \"_base\"\nGROUP BY\n    region") := by
  rfl

/-- C4 (counterexample): scenario 1 does not produce the claimed string with
one space of indentation — the code indents with four spaces. -/
theorem expand_scenario1_not_one_space_indent :
    expand ("orders") ordersDefC4 ⟨["region"], ["total_revenue"]⟩ ≠
      Except.ok ("WITH \"_base\" AS (\n SELECT *\n FROM \"orders\"\n)\nSELECT\n region AS \"region\",\n sum(amount) AS \"total_revenue\"\nFROM \"_base\"\nGROUP BY\n region") := by
  intro h
  have h4 : expand ("orders") ordersDefC4 ⟨["region"], ["total_revenue"]⟩ =
      Except.ok ("WITH \"_base\" AS (\n    SELECT *\n    FROM \"orders\"\n)\nSELECT\n    region AS \"region\",\n    sum(amount) AS \"total_revenue\"\nFROM \"_base\"\nGROUP BY\n    region") := rfl
  rw [h4] at h
  exact absurd (Except.ok.inj h) (by decide)

/-- C3: the define and drop mutation steps are fail-atomic with respect to
the durability layer: a failed step (validation, duplicate/absence check, or
durable-write failure) leaves the whole state unchanged; a successful step
updates the in-memory map and the durable store together; consequently a
state whose map and durable store agree still agrees after any step. -/
theorem define_drop_write_through_atomic (s : SysState) (name json : String) (wOk : Bool) :
    (∀ e, (defineInvokeStep s name json wOk).1 = Except.error e →
        (defineInvokeStep s name json wOk).2 = s) ∧
    ((defineInvokeStep s name json wOk).1 = Except.ok () →
        (defineInvokeStep s name json wOk).2.mem = mapInsertKV s.mem name json ∧
        (defineInvokeStep s name json wOk).2.durable = mapInsertKV s.durable name json) ∧
    (SysSync s → SysSync (defineInvokeStep s name json wOk).2) ∧
    (∀ e, (dropInvokeStep s name wOk).1 = Except.error e →
        (dropInvokeStep s name wOk).2 = s) ∧
    ((dropInvokeStep s name wOk).1 = Except.ok () →
        (dropInvokeStep s name wOk).2.mem = mapRemove s.mem name ∧
        (dropInvokeStep s name wOk).2.durable = mapRemove s.durable name) ∧
    (SysSync s → SysSync (dropInvokeStep s name wOk).2) := by
  refine ⟨?_, ?_, ?_, ?_, ?_, ?_⟩
  · intro e _
    unfold defineInvokeStep
    cases hf : fromJson name json
    · rfl
    · simp only []
      split
      · rfl
      · split
        · exfalso
          unfold defineInvokeStep at *
          simp_all
        · rfl
  · intro h
    unfold defineInvokeStep at h ⊢
    cases hf : fromJson name json <;> rw [hf] at h <;> simp only [] at h ⊢
    · simp at h
    · split at h
      · simp at h
      · split at h
        · constructor <;> simp_all
        · simp at h
  · intro hs
    unfold defineInvokeStep
    cases hf : fromJson name json
    · exact hs
    · simp only []
      split
      · exact hs
      · split
        · intro k
          show mapLookup (mapInsertKV s.mem name json) k =
            mapLookup (mapInsertKV s.durable name json) k
          rw [mapLookup_insert, mapLookup_insert]
          by_cases hk : k = name
          · simp [hk]
          · simp [hk]; exact hs k
        · exact hs
  · intro e _
    unfold dropInvokeStep
    split
    · rfl
    · split
      · exfalso
        unfold dropInvokeStep at *
        simp_all
      · rfl
  · intro h
    unfold dropInvokeStep at h ⊢
    split at h
    · simp at h
    · split at h
      · constructor <;> simp_all
      · simp at h
  · intro hs
    unfold dropInvokeStep
    split
    · exact hs
    · split
      · intro k
        show mapLookup (mapRemove s.mem name) k = mapLookup (mapRemove s.durable name) k
        rw [mapLookup_remove, mapLookup_remove]
        by_cases hk : k = name
        · simp [hk]
        · simp [hk]; exact hs k
      · exact hs

/-- A concrete definition JSON text accepted by validation. -/
def validTJson : String :=
  "\x7b\"base_table\":\"t\",\"dimensions\":[],\"metrics\":[]\x7d"

/-- Witness for C3: at a concrete state, a successful define step updates
both maps, and a failed durable write changes nothing. -/
theorem define_drop_write_through_atomic_witness :
    ((defineInvokeStep ⟨[], []⟩ ("v") validTJson true).2.mem =
        mapInsertKV [] ("v") validTJson ∧
      (defineInvokeStep ⟨[], []⟩ ("v") validTJson true).2.durable =
        mapInsertKV [] ("v") validTJson) ∧
    (defineInvokeStep ⟨[], []⟩ ("v") validTJson false).2 = (⟨[], []⟩ : SysState) :=
  ⟨(define_drop_write_through_atomic ⟨[], []⟩ ("v") validTJson true).2.1 (by rfl),
   (define_drop_write_through_atomic ⟨[], []⟩ ("v") validTJson false).1
     ("durable write failed") (by rfl)⟩

/-- C5 (amended): catalog insert succeeds exactly when the submitted JSON
validates and the name is absent; a successful insert stores the submitted
raw text byte for byte; delete succeeds exactly when the name is present and
afterwards the lookup misses; any failed insert or delete leaves the map
unchanged. -/
theorem catalog_insert_delete_pre_post (m : CatalogMap) (name json : String) :
    ((catalogInsertS m name json).1.isOk = true ↔
        (fromJson name json).isOk = true ∧ mapContains m name = false) ∧
    ((catalogInsertS m name json).1.isOk = true →
        mapLookup (catalogInsertS m name json).2 name = some json) ∧
    (∀ e, (catalogInsertS m name json).1 = Except.error e →
        (catalogInsertS m name json).2 = m) ∧
    ((catalogDeleteS m name).1.isOk = true ↔ mapContains m name = true) ∧
    ((catalogDeleteS m name).1.isOk = true →
        mapLookup (catalogDeleteS m name).2 name = none) ∧
    (∀ e, (catalogDeleteS m name).1 = Except.error e → (catalogDeleteS m name).2 = m) := by
  refine ⟨?_, ?_, ?_, ?_, ?_, ?_⟩
  · unfold catalogInsertS
    cases hf : fromJson name json
    · simp [Except.isOk, Except.toBool]
    · simp only []
      split
      · simp_all [Except.isOk, Except.toBool]
      · simp_all [Except.isOk, Except.toBool]
  · intro h
    unfold catalogInsertS at h ⊢
    cases hf : fromJson name json <;> rw [hf] at h <;> simp only [] at h ⊢
    · simp [Except.isOk, Except.toBool] at h
    · split at h
      · simp [Except.isOk, Except.toBool] at h
      · split
        · simp_all
        · rw [mapLookup_insert]; simp
  · intro e he
    unfold catalogInsertS at he ⊢
    cases hf : fromJson name json
    · rfl
    · simp only [] at he ⊢
      split_ifs at he ⊢ with hc
      · rfl
      · rw [hf] at he
        simp at he
  · unfold catalogDeleteS
    split_ifs with hc
    · simp only [Bool.not_eq_true'] at hc
      simp [Except.isOk, Except.toBool, hc]
    · simp only [Bool.not_eq_true', Bool.not_eq_false] at hc
      simp [Except.isOk, Except.toBool, hc]
  · intro h
    unfold catalogDeleteS at h ⊢
    split_ifs at h ⊢ with hc
    · simp [Except.isOk, Except.toBool] at h
    · rw [mapLookup_remove]; simp
  · intro e he
    unfold catalogDeleteS at he ⊢
    split_ifs at he ⊢ with hc
    · rfl

/-- C5 (counterexample): with an empty catalog the name `v` is absent, yet
insert fails, because the submitted text (an empty JSON object) does not
validate — so "insert succeeds iff the name was absent" is false as stated
for arbitrary JSON strings. -/
theorem catalog_insert_invalid_json_fails_despite_absent :
    mapContains [] ("v") = false ∧
      (catalogInsertS [] ("v") ("\x7b\x7d")).1.isOk = false :=
  ⟨rfl, rfl⟩

/-- Witness for C5 at concrete inputs: a valid insert into the empty map
succeeds and the raw text is retrievable; deleting a missing name leaves the
map unchanged. -/
theorem catalog_insert_delete_pre_post_witness :
    mapLookup (catalogInsertS [] ("v") validTJson).2 ("v") = some validTJson ∧
      (catalogDeleteS [] ("missing")).2 = [] :=
  ⟨(catalog_insert_delete_pre_post [] ("v") validTJson).2.1 (by rfl),
   (catalog_insert_delete_pre_post [] ("missing") ("")).2.2.2.2.2
     ("semantic view 'missing' does not exist") (by rfl)⟩

/-! ### JSON validation contract -/

theorem bind_ok_inv {ε α β : Type} (a : Except ε α) (f : α → Except ε β) (b : β)
    (h : a >>= f = Except.ok b) : ∃ x, a = Except.ok x ∧ f x = Except.ok b := by
  cases a with
  | error e => simp [Bind.bind, Except.bind] at h
  | ok x => exact ⟨x, rfl, by simpa [Bind.bind, Except.bind] using h⟩

theorem isPrefixOf_self_append (pat suf : List Char) : pat.isPrefixOf (pat ++ suf) = true := by
  induction pat with
  | nil => simp [List.isPrefixOf]
  | cons c cs ih => simp [List.isPrefixOf, ih]

theorem listSub_middle (pre pat suf : List Char) : listSub pat (pre ++ (pat ++ suf)) = true := by
  induction pre with
  | nil =>
    cases pat with
    | nil => cases suf <;> simp [listSub, List.isPrefixOf]
    | cons c cs => simp [listSub, isPrefixOf_self_append]
  | cons c pre' ih => simp [listSub, ih]

/-- The view name is a substring of the wrapped error message. -/
theorem name_in_wrapped_error (name rest : String) :
    listSub name.data (("invalid definition for semantic view '" ++ name ++ "': " ++ rest) : String).data = true := by
  have h1 : (("invalid definition for semantic view '" ++ name ++ "': " ++ rest) : String).data =
      ("invalid definition for semantic view '").data ++
        (name.data ++ (("': " ++ rest) : String).data) := by
    simp [String.data_append]
  rw [h1]
  exact listSub_middle _ _ _

theorem getReqString_ok (fields : List (String × Json)) (k v : String)
    (h : getReqString fields k = Except.ok v) : lookupField fields k = some (Json.str v) := by
  unfold getReqString at h
  cases hl : lookupField fields k with
  | none => rw [hl] at h; simp at h
  | some j =>
    rw [hl] at h
    cases j <;> simp at h
    simp [h]

/-- Inversion of a successful strict deserialization. -/
theorem deserializeDefinition_ok_inv (fields : List (String × Json)) (d : SemanticViewDefinition)
    (h : deserializeDefinition (Json.obj fields) = Except.ok d) :
    (∀ p ∈ fields, p.1 ∈ allowedKeys) ∧
    (lookupField fields ("base_table")).isSome = true ∧
    (lookupField fields ("dimensions")).isSome = true ∧
    (lookupField fields ("metrics")).isSome = true ∧
    (lookupField fields ("filters") = none → d.filters = []) ∧
    (lookupField fields ("joins") = none → d.joins = []) := by
  unfold deserializeDefinition at h
  simp only [] at h
  cases hu : fields.find? (fun p => !(allowedKeys.contains p.1)) with
  | some p => rw [hu] at h; simp at h
  | none =>
    rw [hu] at h
    simp only [] at h
    have hall : ∀ p ∈ fields, p.1 ∈ allowedKeys := by
      intro p hp
      have hfe := List.find?_eq_none.mp hu p hp
      simpa using hfe
    cases h1 : getReqString fields ("base_table") with
    | error e => rw [h1] at h; simp at h
    | ok bt =>
    rw [h1] at h
    simp only [] at h
    cases h2 : getArr fields ("dimensions") with
    | none => rw [h2] at h; simp at h
    | some r =>
    rw [h2] at h
    cases r with
    | error e => simp at h
    | ok dimsJ =>
    simp only [] at h
    cases h3 : dimsJ.mapM deserializeDimension with
    | error e => rw [h3] at h; simp at h
    | ok dims =>
    rw [h3] at h
    simp only [] at h
    cases h4 : getArr fields ("metrics") with
    | none => rw [h4] at h; simp at h
    | some r2 =>
    rw [h4] at h
    cases r2 with
    | error e => simp at h
    | ok metsJ =>
    simp only [] at h
    cases h5 : metsJ.mapM deserializeMetric with
    | error e => rw [h5] at h; simp at h
    | ok mets =>
    rw [h5] at h
    simp only [] at h
    cases h6 : (match getArr fields ("filters") with
        | none => Except.ok []
        | some (Except.error e) => Except.error e
        | some (Except.ok xs) => xs.mapM asFilterString) with
    | error e => rw [h6] at h; simp at h
    | ok fs =>
    rw [h6] at h
    simp only [] at h
    cases h7 : (match getArr fields ("joins") with
        | none => Except.ok []
        | some (Except.error e) => Except.error e
        | some (Except.ok xs) => xs.mapM deserializeJoin) with
    | error e => rw [h7] at h; simp at h
    | ok js =>
    rw [h7] at h
    simp only [] at h
    have hd : d = ⟨bt, dims, mets, fs, js⟩ := (Except.ok.inj h).symm
    refine ⟨hall, ?_, ?_, ?_, ?_, ?_⟩
    · rw [getReqString_ok fields _ _ h1]; rfl
    · cases hl : lookupField fields ("dimensions") with
      | none =>
        exfalso
        have hg : getArr fields ("dimensions") = none := by unfold getArr; rw [hl]
        rw [hg] at h2
        simp at h2
      | some j => rfl
    · cases hl : lookupField fields ("metrics") with
      | none =>
        exfalso
        have hg : getArr fields ("metrics") = none := by unfold getArr; rw [hl]
        rw [hg] at h4
        simp at h4
      | some j => rfl
    · intro hl
      have hg : getArr fields ("filters") = none := by unfold getArr; rw [hl]
      rw [hg] at h6
      simp only [] at h6
      rw [hd]
      exact (Except.ok.inj h6).symm
    · intro hl
      have hg : getArr fields ("joins") = none := by unfold getArr; rw [hl]
      rw [hg] at h7
      simp only [] at h7
      rw [hd]
      exact (Except.ok.inj h7).symm

/-- C8: parsing a stored definition fails on malformed JSON, on a missing
required field (`base_table`, `dimensions` or `metrics`) and on any
unrecognized top-level field, in each case with an error message containing
the view name; on success, absent `filters` and `joins` default to the empty
list.  (Parsing is a pure function of its two arguments, embedded as such.) -/
theorem fromJson_validation_contract :
    (∀ name j, parseJsonText j = none →
        ∃ e, fromJson name j = Except.error e ∧ listSub name.data e.data = true) ∧
    (∀ name j fields, parseJsonText j = some (Json.obj fields) →
        (lookupField fields ("base_table") = none ∨ lookupField fields ("dimensions") = none ∨
          lookupField fields ("metrics") = none) →
        ∃ e, fromJson name j = Except.error e ∧ listSub name.data e.data = true) ∧
    (∀ name j fields kv, parseJsonText j = some (Json.obj fields) → kv ∈ fields →
        kv.1 ∉ allowedKeys →
        ∃ e, fromJson name j = Except.error e ∧ listSub name.data e.data = true) ∧
    (∀ name j fields d, parseJsonText j = some (Json.obj fields) →
        fromJson name j = Except.ok d →
        (lookupField fields ("filters") = none → d.filters = []) ∧
        (lookupField fields ("joins") = none → d.joins = [])) := by
  refine ⟨?_, ?_, ?_, ?_⟩
  · intro name j hp
    refine ⟨("invalid definition for semantic view '" ++ name ++ "': malformed JSON"), ?_, ?_⟩
    · unfold fromJson
      rw [hp]
    · have hdata : (("invalid definition for semantic view '" ++ name ++ "': malformed JSON") : String).data =
          ("invalid definition for semantic view '").data ++
            (name.data ++ (("': malformed JSON") : String).data) := by
        simp [String.data_append]
      rw [hdata]
      exact listSub_middle _ _ _
  · intro name j fields hp hmiss
    have herr : ∃ e0, deserializeDefinition (Json.obj fields) = Except.error e0 := by
      cases hd : deserializeDefinition (Json.obj fields) with
      | error e0 => exact ⟨e0, rfl⟩
      | ok d =>
        exfalso
        obtain ⟨_, hb, hdm, hmt, _, _⟩ := deserializeDefinition_ok_inv fields d hd
        rcases hmiss with hm | hm | hm
        · rw [hm] at hb; simp at hb
        · rw [hm] at hdm; simp at hdm
        · rw [hm] at hmt; simp at hmt
    obtain ⟨e0, he0⟩ := herr
    refine ⟨("invalid definition for semantic view '" ++ name ++ "': " ++ e0), ?_, ?_⟩
    · unfold fromJson
      rw [hp]
      simp only []
      rw [he0]
    · have hdata : (("invalid definition for semantic view '" ++ name ++ "': " ++ e0) : String).data =
          ("invalid definition for semantic view '").data ++
            (name.data ++ ((("': ") : String).data ++ e0.data)) := by
        simp [String.data_append]
      rw [hdata]
      exact listSub_middle _ _ _
  · intro name j fields kv hp hkv hnk
    have herr : ∃ e0, deserializeDefinition (Json.obj fields) = Except.error e0 := by
      cases hd : deserializeDefinition (Json.obj fields) with
      | error e0 => exact ⟨e0, rfl⟩
      | ok d =>
        exfalso
        obtain ⟨hall, _, _, _, _, _⟩ := deserializeDefinition_ok_inv fields d hd
        exact hnk (hall kv hkv)
    obtain ⟨e0, he0⟩ := herr
    refine ⟨("invalid definition for semantic view '" ++ name ++ "': " ++ e0), ?_, ?_⟩
    · unfold fromJson
      rw [hp]
      simp only []
      rw [he0]
    · have hdata : (("invalid definition for semantic view '" ++ name ++ "': " ++ e0) : String).data =
          ("invalid definition for semantic view '").data ++
            (name.data ++ ((("': ") : String).data ++ e0.data)) := by
        simp [String.data_append]
      rw [hdata]
      exact listSub_middle _ _ _
  · intro name j fields d hp hok
    unfold fromJson at hok
    rw [hp] at hok
    simp only [] at hok
    cases hd : deserializeDefinition (Json.obj fields) with
    | error e0 => rw [hd] at hok; simp at hok
    | ok d0 =>
      rw [hd] at hok
      have hdd : d0 = d := by simpa using hok
      subst hdd
      obtain ⟨_, _, _, _, hf, hj⟩ := deserializeDefinition_ok_inv fields d0 hd
      exact ⟨hf, hj⟩

/-- Witness for C8: concrete malformed text, missing required field, unknown
top-level field, and defaulted optional fields. -/
theorem fromJson_validation_contract_witness :
    (∃ e, fromJson ("v") ("not json") = Except.error e ∧ listSub ("v").data e.data = true) ∧
    (∃ e, fromJson ("v") ("\x7b\x7d") = Except.error e ∧ listSub ("v").data e.data = true) ∧
    (∃ e, fromJson ("v")
        ("\x7b\"base_table\":\"t\",\"dimensions\":[],\"metrics\":[],\"extra\":\"1\"\x7d") =
          Except.error e ∧ listSub ("v").data e.data = true) ∧
    ((⟨"t", [], [], [], []⟩ : SemanticViewDefinition).filters = [] ∧
      (⟨"t", [], [], [], []⟩ : SemanticViewDefinition).joins = []) := by
  refine ⟨?_, ?_, ?_, ?_⟩
  · exact fromJson_validation_contract.1 ("v") ("not json") (by rfl)
  · exact fromJson_validation_contract.2.1 ("v") ("\x7b\x7d") [] (by rfl) (Or.inl (by rfl))
  · exact fromJson_validation_contract.2.2.1 ("v")
      ("\x7b\"base_table\":\"t\",\"dimensions\":[],\"metrics\":[],\"extra\":\"1\"\x7d")
      [("base_table", Json.str ("t")), ("dimensions", Json.arr []), ("metrics", Json.arr []),
        ("extra", Json.str ("1"))]
      (("extra"), Json.str ("1")) (by rfl) (by simp) (by decide)
  · have h := fromJson_validation_contract.2.2.2 ("v")
      ("\x7b\"base_table\":\"t\",\"dimensions\":[],\"metrics\":[]\x7d")
      [("base_table", Json.str ("t")), ("dimensions", Json.arr []), ("metrics", Json.arr [])]
      (⟨"t", [], [], [], []⟩ : SemanticViewDefinition) (by rfl) (by rfl)
    exact ⟨h.1 (by rfl), h.2 (by rfl)⟩

/-! ### Characterization of the suggestion search -/

/-- Combine an accumulated best pair with the best of a remaining scan;
the accumulated (earlier) pair wins ties. -/
def mergeBest : Option (Nat × String) → Option (Nat × String) → Option (Nat × String)
  | b, none => b
  | none, some r => some r
  | some (bd, bs), some (rd, rc) => if rd < bd then some (rd, rc) else some (bd, bs)

/-- Specification of the scan: the first-encountered minimal pair among
candidates at distance at most 3. -/
def specBest (query : String) : List String → Option (Nat × String)
  | [] => none
  | c :: rest =>
    let d := candDist query c
    match specBest query rest with
    | none => if d ≤ 3 then some (d, c) else none
    | some (rd, rc) => if d ≤ 3 ∧ d ≤ rd then some (d, c) else some (rd, rc)

theorem mergeBest_none_left (r : Option (Nat × String)) : mergeBest none r = r := by
  cases r <;> rfl

theorem specBest_some_dist (query : String) :
    ∀ (l : List String) (rd : Nat) (rc : String), specBest query l = some (rd, rc) →
      rc ∈ l ∧ rd = candDist query rc ∧ rd ≤ 3 := by
  intro l
  induction l with
  | nil => intro rd rc h; simp [specBest] at h
  | cons c rest ih =>
    intro rd rc h
    simp only [specBest] at h
    cases hsr : specBest query rest with
    | none =>
      rw [hsr] at h
      simp only [] at h
      split_ifs at h with hd3
      · simp only [Option.some.injEq, Prod.mk.injEq] at h
        obtain ⟨h1, h2⟩ := h
        subst h1; subst h2
        exact ⟨List.mem_cons_self c rest, rfl, hd3⟩
    | some r =>
      obtain ⟨rd0, rc0⟩ := r
      rw [hsr] at h
      simp only [] at h
      split_ifs at h with hcond
      · simp only [Option.some.injEq, Prod.mk.injEq] at h
        obtain ⟨h1, h2⟩ := h
        subst h1; subst h2
        exact ⟨List.mem_cons_self c rest, rfl, hcond.1⟩
      · simp only [Option.some.injEq, Prod.mk.injEq] at h
        obtain ⟨h1, h2⟩ := h
        subst h1; subst h2
        obtain ⟨hmem, hdist, hle⟩ := ih _ _ hsr
        exact ⟨List.mem_cons_of_mem _ hmem, hdist, hle⟩

theorem bestAux_eq_merge (query : String) (l : List String) :
    ∀ b, bestAux query l b = mergeBest b (specBest query l) := by
  induction l with
  | nil => intro b; cases b <;> rfl
  | cons c rest ih =>
    intro b
    simp only [bestAux]
    rw [ih]
    simp only [specBest]
    cases hsr : specBest query rest with
    | none =>
      cases b with
      | none => by_cases hd3 : candDist query c ≤ 3 <;> simp [mergeBest, hd3]
      | some p =>
        obtain ⟨bd, bs⟩ := p
        by_cases hd3 : candDist query c ≤ 3
        · by_cases hlt : candDist query c < bd <;> simp [mergeBest, hd3, hlt]
        · simp [mergeBest, hd3]
    | some r =>
      obtain ⟨rd, rc⟩ := r
      cases b with
      | none =>
        by_cases hd3 : candDist query c ≤ 3
        · by_cases hdr : candDist query c ≤ rd
          · have hnlt : ¬ rd < candDist query c := by omega
            simp [mergeBest, hd3, hdr, hnlt]
          · have hlt : rd < candDist query c := by omega
            simp [mergeBest, hd3, hdr, hlt]
        · simp [mergeBest, hd3]
      | some p =>
        obtain ⟨bd, bs⟩ := p
        by_cases hd3 : candDist query c ≤ 3
        · by_cases hdr : candDist query c ≤ rd
          · by_cases hbd : candDist query c < bd
            · have h1 : ¬ rd < candDist query c := by omega
              simp [mergeBest, hd3, hdr, hbd, h1]
            · have h1 : ¬ rd < bd := by omega
              simp [mergeBest, hd3, hdr, hbd, h1]
          · by_cases hbd : candDist query c < bd
            · have h1 : rd < candDist query c := by omega
              have h2 : rd < bd := by omega
              simp [mergeBest, hd3, hdr, hbd, h1, h2]
            · by_cases h2 : rd < bd <;> simp [mergeBest, hd3, hdr, hbd, h2]
        · by_cases h2 : rd < bd <;> simp [mergeBest, hd3, h2]

theorem specBest_none_iff (query : String) (l : List String) :
    specBest query l = none ↔ ∀ x ∈ l, 3 < candDist query x := by
  induction l with
  | nil => simp [specBest]
  | cons c rest ih =>
    simp only [specBest]
    cases hsr : specBest query rest with
    | none =>
      have hrest : ∀ x ∈ rest, 3 < candDist query x := ih.mp hsr
      split_ifs with hd3
      · simp only [List.mem_cons]
        constructor
        · intro h; simp at h
        · intro h; exfalso; have := h c (Or.inl rfl); omega
      · simp only [List.mem_cons]
        constructor
        · intro _ x hx
          rcases hx with hx | hx
          · subst hx; omega
          · exact hrest x hx
        · intro _; trivial
    | some r =>
      obtain ⟨rd, rc⟩ := r
      obtain ⟨hmem, hdist, hle⟩ := specBest_some_dist query rest rd rc hsr
      constructor
      · intro h
        simp only [] at h
        by_cases hcond : candDist query c ≤ 3 ∧ candDist query c ≤ rd
        · rw [if_pos hcond] at h; exact absurd h (by simp)
        · rw [if_neg hcond] at h; exact absurd h (by simp)
      · intro h
        exfalso
        have := h rc (List.mem_cons_of_mem _ hmem)
        omega

theorem specBest_some_char (query : String) :
    ∀ (l : List String) (d : Nat) (c : String), specBest query l = some (d, c) →
      ∃ pre suf, l = pre ++ c :: suf ∧ d = candDist query c ∧ d ≤ 3 ∧
        (∀ x ∈ l, d ≤ candDist query x) ∧ (∀ x ∈ pre, d < candDist query x) := by
  intro l
  induction l with
  | nil => intro d c h; simp [specBest] at h
  | cons a rest ih =>
    intro d c h
    simp only [specBest] at h
    cases hsr : specBest query rest with
    | none =>
      rw [hsr] at h
      simp only [] at h
      have hrest : ∀ x ∈ rest, 3 < candDist query x := (specBest_none_iff query rest).mp hsr
      split_ifs at h with hd3
      · simp only [Option.some.injEq, Prod.mk.injEq] at h
        obtain ⟨h1, h2⟩ := h
        subst h1; subst h2
        refine ⟨[], rest, rfl, rfl, hd3, ?_, by simp⟩
        intro x hx
        rcases List.mem_cons.mp hx with hx | hx
        · subst hx; omega
        · have := hrest x hx; omega
    | some r =>
      obtain ⟨rd, rc⟩ := r
      rw [hsr] at h
      simp only [] at h
      obtain ⟨pre', suf', hsplit, hdist, hle, hmin, hpre⟩ := ih rd rc hsr
      split_ifs at h with hcond
      · simp only [Option.some.injEq, Prod.mk.injEq] at h
        obtain ⟨h1, h2⟩ := h
        subst h1; subst h2
        refine ⟨[], rest, rfl, rfl, hcond.1, ?_, by simp⟩
        intro x hx
        rcases List.mem_cons.mp hx with hx | hx
        · subst hx; omega
        · have h5 := hmin x hx
          have h6 := hcond.2
          omega
      · simp only [Option.some.injEq, Prod.mk.injEq] at h
        obtain ⟨h1, h2⟩ := h
        subst h1; subst h2
        refine ⟨a :: pre', suf', by simp [hsplit], hdist, hle, ?_, ?_⟩
        · intro x hx
          rcases List.mem_cons.mp hx with hx | hx
          · subst hx
            by_cases hda : candDist query x ≤ 3
            · have hn : ¬ candDist query x ≤ rd := fun hh => hcond ⟨hda, hh⟩
              omega
            · omega
          · exact hmin x hx
        · intro x hx
          rcases List.mem_cons.mp hx with hx | hx
          · subst hx
            by_cases hda : candDist query x ≤ 3
            · have hn : ¬ candDist query x ≤ rd := fun hh => hcond ⟨hda, hh⟩
              omega
            · omega
          · exact hpre x hx

theorem specBest_of_char (query : String) :
    ∀ (pre suf : List String) (c : String), candDist query c ≤ 3 →
      (∀ x ∈ pre ++ c :: suf, candDist query c ≤ candDist query x) →
      (∀ x ∈ pre, candDist query c < candDist query x) →
      specBest query (pre ++ c :: suf) = some (candDist query c, c) := by
  intro pre
  induction pre with
  | nil =>
    intro suf c h3 hmin _
    simp only [List.nil_append, specBest]
    cases hsr : specBest query suf with
    | none => simp [h3]
    | some r =>
      obtain ⟨rd, rc⟩ := r
      obtain ⟨hmem, hdist, hle⟩ := specBest_some_dist query suf rd rc hsr
      have hdr : candDist query c ≤ rd := by
        have := hmin rc (by simp [hmem])
        omega
      simp only []
      rw [if_pos ⟨h3, hdr⟩]
  | cons a pre' ih =>
    intro suf c h3 hmin hpre
    have hlt : candDist query c < candDist query a := hpre a (by simp)
    have hrec : specBest query (pre' ++ c :: suf) = some (candDist query c, c) := by
      apply ih suf c h3
      · intro x hx; exact hmin x (by simp [hx])
      · intro x hx; exact hpre x (by simp [hx])
    simp only [List.cons_append, specBest, List.append_eq]
    rw [hrec]
    simp only []
    have hna : ¬ (candDist query a ≤ 3 ∧ candDist query a ≤ candDist query c) := by
      rintro ⟨_, hh⟩; omega
    rw [if_neg hna]

/-- C6: `suggest_closest` returns exactly the first-encountered candidate at
minimal Levenshtein distance from the lowercased query, and only when that
distance is at most 3; it returns none exactly when every candidate is
farther than 3; consequently expanding the orders view with requested
dimension `reigon` yields `UnknownDimension` with name `reigon` and
suggestion `region`. -/
theorem suggestClosest_spec :
    (∀ q avail c, suggestClosest q avail = some c ↔
        ∃ pre suf, avail = pre ++ c :: suf ∧ candDist (lowerS q) c ≤ 3 ∧
          (∀ x ∈ avail, candDist (lowerS q) c ≤ candDist (lowerS q) x) ∧
          (∀ x ∈ pre, candDist (lowerS q) c < candDist (lowerS q) x)) ∧
    (∀ q avail, suggestClosest q avail = none ↔ ∀ x ∈ avail, 3 < candDist (lowerS q) x) ∧
    expand ("orders") ordersDefC6 ⟨["reigon"], ["total_revenue"]⟩ =
      Except.error (ExpandError.unknownDimension ("orders") ("reigon") (["region", "status"])
        (some ("region"))) := by
  refine ⟨?_, ?_, ?_⟩
  · intro q avail c
    unfold suggestClosest
    rw [bestAux_eq_merge, mergeBest_none_left]
    constructor
    · intro h
      cases hsb : specBest (lowerS q) avail with
      | none => rw [hsb] at h; simp at h
      | some r =>
        obtain ⟨d0, c0⟩ := r
        rw [hsb] at h
        have hc : c0 = c := by simpa using h
        subst hc
        obtain ⟨pre, suf, hsplit, hdist, h3, hmin, hpre⟩ := specBest_some_char _ _ _ _ hsb
        refine ⟨pre, suf, hsplit, by omega, ?_, ?_⟩
        · intro x hx
          have := hmin x hx
          omega
        · intro x hx
          have := hpre x hx
          omega
    · rintro ⟨pre, suf, rfl, h3, hmin, hpre⟩
      rw [specBest_of_char (lowerS q) pre suf c h3 hmin hpre]
      rfl
  · intro q avail
    unfold suggestClosest
    rw [bestAux_eq_merge, mergeBest_none_left]
    constructor
    · intro h
      cases hsb : specBest (lowerS q) avail with
      | none => exact (specBest_none_iff _ _).mp hsb
      | some r => rw [hsb] at h; simp at h
    · intro h
      rw [(specBest_none_iff _ _).mpr h]
      rfl
  · rfl

/-! ### Successful name resolution -/

theorem resolveDims_ok (vn : String) (dfn : SemanticViewDefinition) :
    ∀ (names seen : List String),
      (∀ n ∈ names, ∃ d ∈ dfn.dimensions, lowerS d.name = lowerS n) →
      (names.map lowerS).Nodup →
      (∀ n ∈ names, lowerS n ∉ seen) →
      ∃ ds, resolveDims vn dfn seen names = Except.ok ds ∧
        ds.length = names.length ∧
        ∀ i (h1 : i < ds.length) (h2 : i < names.length),
          ds.get ⟨i, h1⟩ ∈ dfn.dimensions ∧
          lowerS (ds.get ⟨i, h1⟩).name = lowerS (names.get ⟨i, h2⟩) := by
  intro names
  induction names with
  | nil =>
    intro seen _ _ _
    exact ⟨[], rfl, rfl, fun i h1 _ => absurd h1 (by simp)⟩
  | cons n rest ih =>
    intro seen hres hnd hseen
    have hns : lowerS n ∉ seen := hseen n (by simp)
    obtain ⟨d0, hd0mem, hd0eq⟩ := hres n (by simp)
    have hsome : (dfn.dimensions.find? (fun d => eqIgnoreCase d.name n)).isSome := by
      rw [List.find?_isSome]
      exact ⟨d0, hd0mem, by simp [eqIgnoreCase, hd0eq]⟩
    obtain ⟨d, hd⟩ := Option.isSome_iff_exists.mp hsome
    have hdmem : d ∈ dfn.dimensions := List.mem_of_find?_eq_some hd
    have hdeq : lowerS d.name = lowerS n := by
      have hp := List.find?_some hd
      simpa [eqIgnoreCase] using hp
    rw [List.map_cons, List.nodup_cons] at hnd
    obtain ⟨hnotin, hndrest⟩ := hnd
    have hrest : ∀ m ∈ rest, ∃ d2 ∈ dfn.dimensions, lowerS d2.name = lowerS m :=
      fun m hm => hres m (by simp [hm])
    have hseen' : ∀ m ∈ rest, lowerS m ∉ (lowerS n :: seen) := by
      intro m hm
      simp only [List.mem_cons]
      rintro (heq | hmem)
      · exact hnotin (by rw [← heq]; exact List.mem_map_of_mem lowerS hm)
      · exact hseen m (by simp [hm]) hmem
    obtain ⟨ds, hds, hlen, hpt⟩ := ih (lowerS n :: seen) hrest hndrest hseen'
    refine ⟨d :: ds, ?_, by simp [hlen], ?_⟩
    · simp only [resolveDims]
      rw [if_neg hns]
      show (match findDimension dfn n with
        | none => Except.error (ExpandError.unknownDimension vn n (dfn.dimensions.map (fun d2 => d2.name))
            (suggestClosest n (dfn.dimensions.map (fun d2 => d2.name))))
        | some d2 =>
          match resolveDims vn dfn (lowerS n :: seen) rest with
          | Except.error e => Except.error e
          | Except.ok ds2 => Except.ok (d2 :: ds2)) = Except.ok (d :: ds)
      rw [show findDimension dfn n = some d from hd]
      simp only []
      rw [hds]
    · intro i h1 h2
      cases i with
      | zero => exact ⟨hdmem, by simpa using hdeq⟩
      | succ k =>
        have h1' : k < ds.length := by simpa using h1
        have h2' : k < rest.length := by simpa using h2
        have hk := hpt k h1' h2'
        simpa using hk

theorem resolveMets_ok (vn : String) (dfn : SemanticViewDefinition) :
    ∀ (names seen : List String),
      (∀ n ∈ names, ∃ m ∈ dfn.metrics, lowerS m.name = lowerS n) →
      (names.map lowerS).Nodup →
      (∀ n ∈ names, lowerS n ∉ seen) →
      ∃ ms, resolveMets vn dfn seen names = Except.ok ms ∧
        ms.length = names.length ∧
        ∀ i (h1 : i < ms.length) (h2 : i < names.length),
          ms.get ⟨i, h1⟩ ∈ dfn.metrics ∧
          lowerS (ms.get ⟨i, h1⟩).name = lowerS (names.get ⟨i, h2⟩) := by
  intro names
  induction names with
  | nil =>
    intro seen _ _ _
    exact ⟨[], rfl, rfl, fun i h1 _ => absurd h1 (by simp)⟩
  | cons n rest ih =>
    intro seen hres hnd hseen
    have hns : lowerS n ∉ seen := hseen n (by simp)
    obtain ⟨m0, hm0mem, hm0eq⟩ := hres n (by simp)
    have hsome : (dfn.metrics.find? (fun m => eqIgnoreCase m.name n)).isSome := by
      rw [List.find?_isSome]
      exact ⟨m0, hm0mem, by simp [eqIgnoreCase, hm0eq]⟩
    obtain ⟨m, hm⟩ := Option.isSome_iff_exists.mp hsome
    have hmmem : m ∈ dfn.metrics := List.mem_of_find?_eq_some hm
    have hmeq : lowerS m.name = lowerS n := by
      have hp := List.find?_some hm
      simpa [eqIgnoreCase] using hp
    rw [List.map_cons, List.nodup_cons] at hnd
    obtain ⟨hnotin, hndrest⟩ := hnd
    have hrest : ∀ n2 ∈ rest, ∃ m2 ∈ dfn.metrics, lowerS m2.name = lowerS n2 :=
      fun n2 hn2 => hres n2 (by simp [hn2])
    have hseen' : ∀ n2 ∈ rest, lowerS n2 ∉ (lowerS n :: seen) := by
      intro n2 hn2
      simp only [List.mem_cons]
      rintro (heq | hmem)
      · exact hnotin (by rw [← heq]; exact List.mem_map_of_mem lowerS hn2)
      · exact hseen n2 (by simp [hn2]) hmem
    obtain ⟨ms, hms, hlen, hpt⟩ := ih (lowerS n :: seen) hrest hndrest hseen'
    refine ⟨m :: ms, ?_, by simp [hlen], ?_⟩
    · simp only [resolveMets]
      rw [if_neg hns]
      show (match findMetric dfn n with
        | none => Except.error (ExpandError.unknownMetric vn n (dfn.metrics.map (fun m2 => m2.name))
            (suggestClosest n (dfn.metrics.map (fun m2 => m2.name))))
        | some m2 =>
          match resolveMets vn dfn (lowerS n :: seen) rest with
          | Except.error e => Except.error e
          | Except.ok ms2 => Except.ok (m2 :: ms2)) = Except.ok (m :: ms)
      rw [show findMetric dfn n = some m from hm]
      simp only []
      rw [hms]
    · intro i h1 h2
      cases i with
      | zero => exact ⟨hmmem, by simpa using hmeq⟩
      | succ k =>
        have h1' : k < ms.length := by simpa using h1
        have h2' : k < rest.length := by simpa using h2
        have hk := hpt k h1' h2'
        simpa using hk

/-- C1: on a duplicate-free case-insensitive subsequence of the declared
names with at least one metric, `expand` succeeds; its SELECT list holds, in
request order with dimensions first, every resolved expression aliased by
the declared original-cased name in double quotes; a `GROUP BY` with the raw
dimension expressions in request order is emitted exactly when dimensions
were requested. -/
theorem expand_subsequence_success (vn : String) (dfn : SemanticViewDefinition)
    (req : QueryRequest)
    (hm : req.metrics ≠ [])
    (hdsub : List.Sublist (req.dimensions.map lowerS) (dfn.dimensions.map (fun d => lowerS d.name)))
    (hdnd : (req.dimensions.map lowerS).Nodup)
    (hmsub : List.Sublist (req.metrics.map lowerS) (dfn.metrics.map (fun m => lowerS m.name)))
    (hmnd : (req.metrics.map lowerS).Nodup) :
    ∃ ds ms,
      ds.length = req.dimensions.length ∧ ms.length = req.metrics.length ∧
      (∀ i (h1 : i < ds.length) (h2 : i < req.dimensions.length),
        ds.get ⟨i, h1⟩ ∈ dfn.dimensions ∧
        lowerS (ds.get ⟨i, h1⟩).name = lowerS (req.dimensions.get ⟨i, h2⟩)) ∧
      (∀ i (h1 : i < ms.length) (h2 : i < req.metrics.length),
        ms.get ⟨i, h1⟩ ∈ dfn.metrics ∧
        lowerS (ms.get ⟨i, h1⟩).name = lowerS (req.metrics.get ⟨i, h2⟩)) ∧
      expand vn dfn req = Except.ok (cteFor dfn ds ms
        ++ "\nSELECT\n"
        ++ String.intercalate (",\n")
            (ds.map (fun d => selectItem d.name d.expr) ++ ms.map (fun m2 => selectItem m2.name m2.expr))
        ++ "\nFROM \"_base\""
        ++ (if req.dimensions = [] then ""
            else "\nGROUP BY\n" ++ String.intercalate (",\n") (ds.map (fun d => "    " ++ d.expr)))) := by
  have hdres : ∀ n ∈ req.dimensions, ∃ d ∈ dfn.dimensions, lowerS d.name = lowerS n := by
    intro n hn
    have hmm : lowerS n ∈ dfn.dimensions.map (fun d => lowerS d.name) :=
      hdsub.subset (List.mem_map_of_mem lowerS hn)
    obtain ⟨d, hd, he⟩ := List.mem_map.mp hmm
    exact ⟨d, hd, he⟩
  have hmres : ∀ n ∈ req.metrics, ∃ m2 ∈ dfn.metrics, lowerS m2.name = lowerS n := by
    intro n hn
    have hmm : lowerS n ∈ dfn.metrics.map (fun m2 => lowerS m2.name) :=
      hmsub.subset (List.mem_map_of_mem lowerS hn)
    obtain ⟨m2, hm2, he⟩ := List.mem_map.mp hmm
    exact ⟨m2, hm2, he⟩
  obtain ⟨ds, hds, hdlen, hdpt⟩ :=
    resolveDims_ok vn dfn req.dimensions [] hdres hdnd (by simp)
  obtain ⟨ms, hms, hmlen, hmpt⟩ :=
    resolveMets_ok vn dfn req.metrics [] hmres hmnd (by simp)
  refine ⟨ds, ms, hdlen, hmlen, hdpt, hmpt, ?_⟩
  unfold expand
  rw [if_neg (by simpa [List.isEmpty_iff] using hm)]
  rw [hds]
  simp only []
  rw [hms]
  simp only []
  congr 1
  unfold buildSql
  by_cases hE : req.dimensions = []
  · have hds0 : ds = [] := List.eq_nil_of_length_eq_zero (by rw [hdlen, hE]; rfl)
    simp [hds0, hE]
  · have hds0 : ds ≠ [] := by
      intro hh
      rw [hh] at hdlen
      exact hE (List.eq_nil_of_length_eq_zero hdlen.symm)
    have h1 : ds.isEmpty = false := by simpa [List.isEmpty_iff] using hds0
    rw [if_neg hE, if_neg (by simp [h1])]

/-- Witness for C1 at the concrete orders view with request
`(["region"], ["total_revenue"])`. -/
theorem expand_subsequence_success_witness :
    ∃ ds ms,
      List.length ds = List.length (["region"] : List String) ∧
      List.length ms = List.length (["total_revenue"] : List String) ∧
      (∀ i (h1 : i < List.length ds) (h2 : i < List.length (["region"] : List String)),
        ds.get ⟨i, h1⟩ ∈ ordersDefC6.dimensions ∧
        lowerS (ds.get ⟨i, h1⟩).name = lowerS ((["region"] : List String).get ⟨i, h2⟩)) ∧
      (∀ i (h1 : i < List.length ms) (h2 : i < List.length (["total_revenue"] : List String)),
        ms.get ⟨i, h1⟩ ∈ ordersDefC6.metrics ∧
        lowerS (ms.get ⟨i, h1⟩).name = lowerS ((["total_revenue"] : List String).get ⟨i, h2⟩)) ∧
      expand ("orders") ordersDefC6 ⟨["region"], ["total_revenue"]⟩ =
        Except.ok (cteFor ordersDefC6 ds ms
          ++ "\nSELECT\n"
          ++ String.intercalate (",\n")
              (ds.map (fun d => selectItem d.name d.expr) ++ ms.map (fun m2 => selectItem m2.name m2.expr))
          ++ "\nFROM \"_base\""
          ++ (if (["region"] : List String) = [] then ""
              else "\nGROUP BY\n" ++ String.intercalate (",\n") (ds.map (fun d => "    " ++ d.expr)))) :=
  expand_subsequence_success ("orders") ordersDefC6 ⟨["region"], ["total_revenue"]⟩
    (by decide) (by decide) (by decide) (by decide) (by decide)

/-! ### Join fixed-point theory -/

/-- A set of lowercased table names is closed under the ON-text containment
rule of `resolve_joins`: whenever a needed join's lowercased ON text
contains another declared join's lowercased table name, that table is also
in the set. -/
def JoinClosedP (joins : List Join) (P : String → Prop) : Prop :=
  ∀ j ∈ joins, P (lowerS j.table) →
    ∀ o ∈ joins, lowerS o.table ≠ lowerS j.table →
      substrB (lowerS o.table) (lowerS j.onText) = true → P (lowerS o.table)

theorem innerScan_extend (tl onl : String) :
    ∀ (others : List Join) (needed : List String),
      ∃ ex, innerScan tl onl others needed = needed ++ ex ∧
        ∀ a ∈ ex, a ∈ others.map (fun o => lowerS o.table) ∧ a ∉ needed := by
  intro others
  induction others with
  | nil => intro needed; exact ⟨[], by simp [innerScan], by simp⟩
  | cons o rest ih =>
    intro needed
    simp only [innerScan]
    by_cases hc : lowerS o.table ≠ tl ∧ lowerS o.table ∉ needed ∧ substrB (lowerS o.table) onl
    · rw [if_pos hc]
      obtain ⟨ex, hex, hprop⟩ := ih (needed ++ [lowerS o.table])
      refine ⟨lowerS o.table :: ex, by rw [hex]; simp, ?_⟩
      intro a ha
      rcases List.mem_cons.mp ha with ha | ha
      · subst ha; exact ⟨by simp, hc.2.1⟩
      · obtain ⟨hmap, hnm⟩ := hprop a ha
        exact ⟨by simp [List.mem_cons]; right; simpa using hmap, fun hh => hnm (by simp [hh])⟩
    · rw [if_neg hc]
      obtain ⟨ex, hex, hprop⟩ := ih needed
      refine ⟨ex, hex, ?_⟩
      intro a ha
      obtain ⟨hmap, hnm⟩ := hprop a ha
      exact ⟨by simp [List.mem_cons]; right; simpa using hmap, hnm⟩

theorem outerScan_extend (allJoins : List Join) :
    ∀ (rest : List Join) (needed : List String),
      ∃ ex, outerScan allJoins rest needed = needed ++ ex ∧
        ∀ a ∈ ex, a ∈ allJoins.map (fun o => lowerS o.table) ∧ a ∉ needed := by
  intro rest
  induction rest with
  | nil => intro needed; exact ⟨[], by simp [outerScan], by simp⟩
  | cons j rest' ih =>
    intro needed
    simp only [outerScan]
    by_cases hc : lowerS j.table ∈ needed
    · rw [if_pos hc]
      obtain ⟨ex1, hex1, hprop1⟩ := innerScan_extend (lowerS j.table) (lowerS j.onText) allJoins needed
      rw [hex1]
      obtain ⟨ex2, hex2, hprop2⟩ := ih (needed ++ ex1)
      rw [hex2]
      refine ⟨ex1 ++ ex2, by simp, ?_⟩
      intro a ha
      rcases List.mem_append.mp ha with ha | ha
      · exact hprop1 a ha
      · obtain ⟨hmap, hnm⟩ := hprop2 a ha
        exact ⟨hmap, fun hh => hnm (by simp [hh])⟩
    · rw [if_neg hc]
      exact ih needed

/-- Lowercased tables of the declared joins. -/
def joinTables (joins : List Join) : List String :=
  joins.map (fun j => lowerS j.table)

/-- Number of declared join tables not yet in the needed set. -/
def measureU (joins : List Join) (needed : List String) : Nat :=
  ((joinTables joins).toFinset.filter (fun x => x ∉ needed)).card

theorem scanStep_measure_lt (joins : List Join) (needed : List String)
    (hne : scanStep joins needed ≠ needed) :
    measureU joins (scanStep joins needed) < measureU joins needed := by
  obtain ⟨ex, hex, hprop⟩ := outerScan_extend joins joins needed
  have hex' : scanStep joins needed = needed ++ ex := hex
  have hEx : ex ≠ [] := by
    intro hh
    apply hne
    rw [hex', hh, List.append_nil]
  obtain ⟨a, ha⟩ := List.exists_mem_of_ne_nil ex hEx
  obtain ⟨hmap, hnm⟩ := hprop a ha
  apply Finset.card_lt_card
  rw [Finset.ssubset_iff_of_subset]
  · refine ⟨a, ?_, ?_⟩
    · rw [Finset.mem_filter]
      exact ⟨List.mem_toFinset.mpr (by simpa [joinTables] using hmap), by simpa using hnm⟩
    · rw [Finset.mem_filter]
      rintro ⟨-, habs⟩
      rw [hex'] at habs
      simp [ha] at habs
  · intro x hx
    rw [Finset.mem_filter] at hx ⊢
    refine ⟨hx.1, ?_⟩
    have hx2 := hx.2
    simp only [decide_not, Bool.not_eq_true', decide_eq_false_iff_not] at hx2 ⊢
    intro hxn
    apply hx2
    rw [hex']
    exact List.mem_append.mpr (Or.inl hxn)

theorem loopFix_fix (joins : List Join) :
    ∀ fuel needed, measureU joins needed < fuel →
      scanStep joins (loopFix fuel joins needed) = loopFix fuel joins needed := by
  intro fuel
  induction fuel with
  | zero => intro needed h; exact absurd h (by omega)
  | succ k ih =>
    intro needed h
    simp only [loopFix]
    by_cases he : scanStep joins needed = needed
    · rw [if_pos he]; exact he
    · rw [if_neg he]
      apply ih
      have := scanStep_measure_lt joins needed he
      omega

theorem loopFix_stable (joins : List Join) :
    ∀ fuel needed, measureU joins needed < fuel →
      ∀ extra, loopFix (fuel + extra) joins needed = loopFix fuel joins needed := by
  intro fuel
  induction fuel with
  | zero => intro needed h; exact absurd h (by omega)
  | succ k ih =>
    intro needed h extra
    have hre : k + 1 + extra = (k + extra) + 1 := by omega
    rw [hre]
    simp only [loopFix]
    by_cases he : scanStep joins needed = needed
    · rw [if_pos he, if_pos he]
    · rw [if_neg he, if_neg he]
      exact ih (scanStep joins needed)
        (by have := scanStep_measure_lt joins needed he; omega) extra

theorem measureU_lt (joins : List Join) (needed : List String) :
    measureU joins needed < joins.length + 1 := by
  unfold measureU
  have h1 := Finset.card_filter_le (joinTables joins).toFinset (fun x => x ∉ needed)
  have h2 := (joinTables joins).toFinset_card_le
  have h3 : (joinTables joins).length = joins.length := by simp [joinTables]
  omega

theorem loopFix_supset (joins : List Join) :
    ∀ fuel needed x, x ∈ needed → x ∈ loopFix fuel joins needed := by
  intro fuel
  induction fuel with
  | zero => intro needed x hx; simpa [loopFix] using hx
  | succ k ih =>
    intro needed x hx
    simp only [loopFix]
    by_cases he : scanStep joins needed = needed
    · rw [if_pos he]; exact hx
    · rw [if_neg he]
      apply ih
      obtain ⟨ex, hex, -⟩ := outerScan_extend joins joins needed
      have hex' : scanStep joins needed = needed ++ ex := hex
      rw [hex']
      exact List.mem_append.mpr (Or.inl hx)

theorem innerScan_mem (tl onl : String) :
    ∀ (others : List Join) (needed : List String) (o : Join), o ∈ others →
      lowerS o.table ≠ tl → substrB (lowerS o.table) onl = true →
      lowerS o.table ∈ innerScan tl onl others needed := by
  intro others
  induction others with
  | nil => intro needed o ho; simp at ho
  | cons o' rest ih =>
    intro needed o ho hne hsub
    simp only [innerScan]
    rcases List.mem_cons.mp ho with ho | ho
    · subst ho
      by_cases hc : lowerS o.table ≠ tl ∧ lowerS o.table ∉ needed ∧ substrB (lowerS o.table) onl
      · rw [if_pos hc]
        obtain ⟨ex, hex, -⟩ := innerScan_extend tl onl rest (needed ++ [lowerS o.table])
        rw [hex]
        simp
      · rw [if_neg hc]
        have hmem : lowerS o.table ∈ needed := by
          by_contra hnm
          exact hc ⟨hne, hnm, hsub⟩
        obtain ⟨ex, hex, -⟩ := innerScan_extend tl onl rest needed
        rw [hex]
        exact List.mem_append.mpr (Or.inl hmem)
    · split_ifs with hc
      · exact ih _ o ho hne hsub
      · exact ih _ o ho hne hsub

theorem outerScan_mem (allJoins : List Join) :
    ∀ (rest : List Join) (needed : List String) (j o : Join), j ∈ rest →
      lowerS j.table ∈ needed → o ∈ allJoins → lowerS o.table ≠ lowerS j.table →
      substrB (lowerS o.table) (lowerS j.onText) = true →
      lowerS o.table ∈ outerScan allJoins rest needed := by
  intro rest
  induction rest with
  | nil => intro needed j o hj; simp at hj
  | cons j' rest' ih =>
    intro needed j o hj hjn ho hne hsub
    simp only [outerScan]
    rcases List.mem_cons.mp hj with hj | hj
    · subst hj
      rw [if_pos hjn]
      have h1 : lowerS o.table ∈ innerScan (lowerS j.table) (lowerS j.onText) allJoins needed :=
        innerScan_mem _ _ allJoins needed o ho hne hsub
      obtain ⟨ex, hex, -⟩ := outerScan_extend allJoins rest'
        (innerScan (lowerS j.table) (lowerS j.onText) allJoins needed)
      rw [hex]
      exact List.mem_append.mpr (Or.inl h1)
    · split_ifs with hc
      · obtain ⟨ex, hex, -⟩ := innerScan_extend (lowerS j'.table) (lowerS j'.onText) allJoins needed
        refine ih _ j o hj ?_ ho hne hsub
        rw [hex]
        exact List.mem_append.mpr (Or.inl hjn)
      · exact ih needed j o hj hjn ho hne hsub

/-- A scan that makes no change witnesses closure. -/
theorem scanStep_fix_closed (joins : List Join) (needed : List String)
    (hfix : scanStep joins needed = needed) :
    JoinClosedP joins (fun x => x ∈ needed) := by
  intro j hj hjP o ho hne hsub
  have hm := outerScan_mem joins joins needed j o hj hjP ho hne hsub
  have hss : outerScan joins joins needed = needed := hfix
  rw [hss] at hm
  exact hm

theorem innerScan_sound (P : String → Prop) (joins : List Join) (hC : JoinClosedP joins P)
    (j : Join) (hj : j ∈ joins) (hPj : P (lowerS j.table)) :
    ∀ (others : List Join) (needed : List String), (∀ o ∈ others, o ∈ joins) →
      (∀ x ∈ needed, P x) →
      ∀ x ∈ innerScan (lowerS j.table) (lowerS j.onText) others needed, P x := by
  intro others
  induction others with
  | nil => intro needed _ hP x hx; exact hP x (by simpa [innerScan] using hx)
  | cons o rest ih =>
    intro needed hsub hP x hx
    simp only [innerScan] at hx
    by_cases hc : lowerS o.table ≠ lowerS j.table ∧ lowerS o.table ∉ needed ∧
        substrB (lowerS o.table) (lowerS j.onText)
    · rw [if_pos hc] at hx
      refine ih (needed ++ [lowerS o.table]) (fun o' ho' => hsub o' (by simp [ho'])) ?_ x hx
      intro y hy
      rcases List.mem_append.mp hy with hy | hy
      · exact hP y hy
      · have hyy : y = lowerS o.table := by simpa using hy
        subst hyy
        exact hC j hj hPj o (hsub o (by simp)) hc.1 hc.2.2
    · rw [if_neg hc] at hx
      exact ih needed (fun o' ho' => hsub o' (by simp [ho'])) hP x hx

theorem outerScan_sound (P : String → Prop) (joins : List Join) (hC : JoinClosedP joins P) :
    ∀ (rest : List Join) (needed : List String), (∀ j ∈ rest, j ∈ joins) →
      (∀ x ∈ needed, P x) → ∀ x ∈ outerScan joins rest needed, P x := by
  intro rest
  induction rest with
  | nil => intro needed _ hP x hx; exact hP x (by simpa [outerScan] using hx)
  | cons j rest' ih =>
    intro needed hsub hP x hx
    simp only [outerScan] at hx
    by_cases hc : lowerS j.table ∈ needed
    · rw [if_pos hc] at hx
      refine ih _ (fun j' hj' => hsub j' (by simp [hj'])) ?_ x hx
      exact innerScan_sound P joins hC j (hsub j (by simp)) (hP _ hc) joins needed
        (fun o ho => ho) hP
    · rw [if_neg hc] at hx
      exact ih needed (fun j' hj' => hsub j' (by simp [hj'])) hP x hx

theorem loopFix_sound (P : String → Prop) (joins : List Join) (hC : JoinClosedP joins P) :
    ∀ fuel needed, (∀ x ∈ needed, P x) → ∀ x ∈ loopFix fuel joins needed, P x := by
  intro fuel
  induction fuel with
  | zero => intro needed hP x hx; exact hP x (by simpa [loopFix] using hx)
  | succ k ih =>
    intro needed hP x hx
    simp only [loopFix] at hx
    by_cases he : scanStep joins needed = needed
    · rw [if_pos he] at hx; exact hP x hx
    · rw [if_neg he] at hx
      exact ih _ (outerScan_sound P joins hC joins needed (fun _ hh => hh) hP) x hx

/-- C10: the `resolve_joins` fixed-point loop terminates — with
`joins.length + 1` full scans (the fuel used by `resolveJoins`) the result
is already a fixed point of a full scan, and giving the loop any more fuel
changes nothing; hence the unbounded Rust loop exits after at most
`joins.length + 1` scans and `resolve_joins` (and `expand`) is total. -/
theorem resolve_joins_loop_terminates (joins : List Join) (needed0 : List String) :
    scanStep joins (loopFix (joins.length + 1) joins needed0) =
      loopFix (joins.length + 1) joins needed0 ∧
    ∀ extra, loopFix (joins.length + 1 + extra) joins needed0 =
      loopFix (joins.length + 1) joins needed0 :=
  ⟨loopFix_fix joins (joins.length + 1) needed0 (measureU_lt joins needed0),
   fun extra => loopFix_stable joins (joins.length + 1) needed0 (measureU_lt joins needed0) extra⟩

/-- C2: for every request accepted by `expand`, the emitted JOIN clauses are
exactly the declared joins (in declaration order) whose lowercased table
lies in the needed set `N`: the least set containing the resolved
dimensions' and metrics' lowercased `source_table` values and closed under
the ON-text containment rule; when no resolved dimension or metric carries a
`source_table`, no join is emitted at all. -/
theorem expand_join_pruning (vn : String) (dfn : SemanticViewDefinition) (req : QueryRequest)
    (sql : String) (h : expand vn dfn req = Except.ok sql) :
    ∃ (ds : List Dimension) (ms : List Metric) (N : List String),
      resolveDims vn dfn [] req.dimensions = Except.ok ds ∧
      resolveMets vn dfn [] req.metrics = Except.ok ms ∧
      sql = buildSql dfn ds ms ∧
      resolveJoins dfn.joins ds ms = dfn.joins.filter (fun j => decide (lowerS j.table ∈ N)) ∧
      (∀ x ∈ sourceTables ds ms, x ∈ N) ∧
      JoinClosedP dfn.joins (fun x => x ∈ N) ∧
      (∀ P : String → Prop, (∀ x ∈ sourceTables ds ms, P x) → JoinClosedP dfn.joins P →
        ∀ x ∈ N, P x) ∧
      (sourceTables ds ms = [] → resolveJoins dfn.joins ds ms = []) := by
  obtain ⟨hme, ds, ms, hds, hms, hsql⟩ := expand_ok_inv vn dfn req sql h
  by_cases hempty : sourceTables ds ms = []
  · have hrj : resolveJoins dfn.joins ds ms = [] := by
      unfold resolveJoins
      rw [if_pos (by simp [hempty])]
    refine ⟨ds, ms, [], hds, hms, hsql, ?_, by simp [hempty], ?_, ?_, fun _ => hrj⟩
    · rw [hrj]
      have hf : dfn.joins.filter (fun j => decide (lowerS j.table ∈ ([] : List String))) = [] := by
        simp
      rw [hf]
    · intro j hj hjP
      simp at hjP
    · intro P _ _ x hx
      simp at hx
  · refine ⟨ds, ms, loopFix (dfn.joins.length + 1) dfn.joins (sourceTables ds ms),
      hds, hms, hsql, ?_, ?_, ?_, ?_, fun he => absurd he hempty⟩
    · unfold resolveJoins
      rw [if_neg (by simpa [List.isEmpty_iff] using hempty)]
    · intro x hx
      exact loopFix_supset dfn.joins _ _ x hx
    · exact scanStep_fix_closed dfn.joins _
        (loopFix_fix dfn.joins (dfn.joins.length + 1) (sourceTables ds ms)
          (measureU_lt dfn.joins (sourceTables ds ms)))
    · intro P hbase hC x hx
      exact loopFix_sound P dfn.joins hC _ _ hbase x hx

/-- Concrete orders view with a transitively needed join chain
(`regions` requires `customers` through its ON text). -/
def joinedDef : SemanticViewDefinition :=
  ⟨"orders", [⟨"region_name", "regions.name", some ("regions")⟩],
    [⟨"total_revenue", "sum(amount)", none⟩], [],
    [⟨"customers", "orders.customer_id = customers.id"⟩,
     ⟨"regions", "customers.region_id = regions.id"⟩]⟩

/-- Witness for C2 at the transitive-join view: the request for
`region_name` pulls in `regions` and, through its ON text, `customers`. -/
theorem expand_join_pruning_witness :
    ∃ (ds : List Dimension) (ms : List Metric) (N : List String),
      resolveDims ("orders") joinedDef [] (["region_name"]) = Except.ok ds ∧
      resolveMets ("orders") joinedDef [] (["total_revenue"]) = Except.ok ms ∧
      ("WITH \"_base\" AS (\n    SELECT *\n    FROM \"orders\"\n    JOIN \"customers\" ON orders.customer_id = customers.id\n    JOIN \"regions\" ON customers.region_id = regions.id\n)\nSELECT\n    regions.name AS \"region_name\",\n    sum(amount) AS \"total_revenue\"\nFROM \"_base\"\nGROUP BY\n    regions.name") = buildSql joinedDef ds ms ∧
      resolveJoins joinedDef.joins ds ms =
        joinedDef.joins.filter (fun j => decide (lowerS j.table ∈ N)) ∧
      (∀ x ∈ sourceTables ds ms, x ∈ N) ∧
      JoinClosedP joinedDef.joins (fun x => x ∈ N) ∧
      (∀ P : String → Prop, (∀ x ∈ sourceTables ds ms, P x) → JoinClosedP joinedDef.joins P →
        ∀ x ∈ N, P x) ∧
      (sourceTables ds ms = [] → resolveJoins joinedDef.joins ds ms = []) :=
  expand_join_pruning ("orders") joinedDef ⟨["region_name"], ["total_revenue"]⟩
    ("WITH \"_base\" AS (\n    SELECT *\n    FROM \"orders\"\n    JOIN \"customers\" ON orders.customer_id = customers.id\n    JOIN \"regions\" ON customers.region_id = regions.id\n)\nSELECT\n    regions.name AS \"region_name\",\n    sum(amount) AS \"total_revenue\"\nFROM \"_base\"\nGROUP BY\n    regions.name")
    (by rfl)
